import Mathlib

/-!
The `test-scheduling` scheduler plugin (`lib/test-scheduling.go`).

A shallow embedding of the extension points `PreFilter`, `Filter`, `PreScore`,
`Score`, `NormalizeScore` and `Permit` of the plugin and the properties the
specification states about them.

Conventions of the embedding.

* Go `int` / `int64` values are `Int`; every `int64` operation of the source is
  followed by `wrap64`, the two's-complement reduction modulo `2^64`.
* Integer division is Go's: truncated towards zero, a run-time panic on a zero
  divisor (modelled by `none`).
* A `float64` is its exact rational value (or an infinity or NaN); a `float64`
  operation rounds the exact result to nearest, ties to even (`round64`).
* The informer-backed pod lister is a pair of functions returning `Except`.
* A `map[string]string` ranged over by `for k, v := range m` is the list of the
  `(k, v)` pairs in the order the loop visits them (Go leaves the order
  unspecified, so the theorems quantify over every list).
-/

namespace lib

/-! ## The scheduler framework's vocabulary -/

/-- Modelled from the spec: `framework.Code` of the Kubernetes scheduler framework
(not part of this repository); the status vocabulary returned to the orchestrator. -/
inductive Code where
  | Success
  | Error
  | Unschedulable
  | UnschedulableAndUnresolvable
  | Wait
  | Skip
  deriving DecidableEq, Repr

/-- Modelled from the spec: `framework.Status` of the scheduler framework, a code
together with the reason strings handed to `framework.NewStatus`. -/
structure Status where
  code : Code
  reasons : List String
  deriving DecidableEq, Repr

/-- Modelled from the spec: the constructor `framework.NewStatus(code, reasons...)` of the
scheduler framework. -/
def NewStatus (code : Code) (reasons : List String) : Status :=
  { code := code, reasons := reasons }

/-- Modelled from the spec: `framework.MaxNodeScore`, the orchestrator's maximum
score `M = 100` (an `int64` constant of the scheduler framework). -/
def MaxNodeScore : Int := 100

/-- The fields of `v1.Pod` the plugin reads. -/
structure Pod where
  Namespace : String
  Name : String
  deriving DecidableEq, Repr

/-- A Go `error` value returned by the pod lister: either the API "not found"
error or any other (transport / availability) failure. `err != nil` holds for
both. -/
inductive ListerError where
  | NotFound (msg : String)
  | Unavailable (msg : String)
  deriving DecidableEq, Repr

/-- The method `err.Error()`. -/
def ListerError.Error : ListerError → String
  | .NotFound msg => msg
  | .Unavailable msg => msg

/-- The read interface reached through
`s.fac.Core().V1().Pods().Lister()`: `Pods(ns).List(labels.Everything())` and
`Pods(ns).Get(name)`. -/
structure PodLister where
  ListPods : String → Except ListerError (List Pod)
  GetPod : String → String → Except ListerError Pod

/-! ## The plugin -/

/-- The constant `TestSchedulingName`. -/
def TestSchedulingName : String := "test-scheduling"

/-- The configuration `type Args struct { MaxPods int }`. -/
structure Args where
  MaxPods : Int
  deriving DecidableEq, Repr

/-- The value `&Args{}` that `NewTestScheduling` decodes the configuration into:
a configuration without `maxPods` leaves the Go zero value. -/
def Args.zero : Args := { MaxPods := 0 }

/-- The plugin `type TestScheduling struct { fac; args }`. -/
structure TestScheduling where
  fac : PodLister
  args : Args

/-- Source: `func (*TestScheduling) Name() string`. -/
def Name (_s : TestScheduling) : String := TestSchedulingName

/-- Source: `func (s *TestScheduling) PreFilter(ctx, state, p)`. -/
def PreFilter (s : TestScheduling) (p : Pod) : Status :=
  match s.fac.ListPods p.Namespace with
  | .error err => NewStatus Code.Error [err.Error]
  | .ok pods =>
    if (pods.length : Int) > s.args.MaxPods then
      NewStatus Code.Unschedulable ["pod数量超过了最大限制"]
    else
      NewStatus Code.Success []

/-- The part of `framework.NodeInfo` the plugin reads: `nodeInfo.Node().Labels` of a
present node, as the sequence of pairs the `range` loop visits. -/
structure NodeInfo where
  Name : String
  Labels : List (String × String)
  deriving DecidableEq, Repr

/-- The `for k, v := range nodeInfo.Node().Labels` loop of `Filter`, with its early
return. -/
def FilterLoop : List (String × String) → Status
  | [] => NewStatus Code.Success []
  | (k, v) :: rest =>
    if k = "scheduling" ∧ v ≠ "true" then
      NewStatus Code.Unschedulable ["设置了不可调度的标签"]
    else
      FilterLoop rest

/-- Source: `func (s *TestScheduling) Filter(ctx, state, pod, nodeInfo)`. -/
def Filter (_s : TestScheduling) (_pod : Pod) (nodeInfo : NodeInfo) : Status :=
  FilterLoop nodeInfo.Labels

/-! ## `int64` arithmetic -/

/-- Two's-complement reduction of an integer to the `int64` range. -/
def wrap64 (x : Int) : Int := (x + 2 ^ 63) % 2 ^ 64 - 2 ^ 63

/-- The value is representable as an `int64`. -/
def fitsInt64 (x : Int) : Prop := -(2 ^ 63) ≤ x ∧ x < 2 ^ 63

instance (x : Int) : Decidable (fitsInt64 x) := by
  unfold fitsInt64; infer_instance

/-- Go `a - b` on `int64`. -/
def sub64 (a b : Int) : Int := wrap64 (a - b)

/-- Go `a * b` on `int64`. -/
def mul64 (a b : Int) : Int := wrap64 (a * b)

/-- Go `a / b` on `int64`: truncated division; a zero divisor panics (`none`);
`MinInt64 / -1` wraps. -/
def div64 (a b : Int) : Option Int :=
  if b = 0 then none else some (wrap64 (Int.tdiv a b))

/-! ## Score normalisation -/

/-- The pair `framework.NodeScore` of a host name and a score. -/
structure NodeScore where
  Name : String
  Score : Int
  deriving DecidableEq, Repr

/-- The slice type `framework.NodeScoreList`. -/
abbrev NodeScoreList := List NodeScore

/-- One iteration of the first loop of `NormalizeScore`, on the pair `(min, max)`. -/
def scanStep (mm : Int × Int) (score : NodeScore) : Int × Int :=
  let min := if score.Score < mm.1 then score.Score else mm.1
  let max := if score.Score > mm.2 then score.Score else mm.2
  (min, max)

/-- The first loop of `NormalizeScore`: `var min, max int64 = 0, 0` and the scan. -/
def scanMinMax (scores : NodeScoreList) : Int × Int :=
  scores.foldl scanStep (0, 0)

/-- The value of `min` after `if max == min { min = min - 1 }`. -/
def adjustedMin (scores : NodeScoreList) : Int :=
  let mm := scanMinMax scores
  if mm.2 = mm.1 then sub64 mm.1 1 else mm.1

/-- The value of `max` when the second loop runs. -/
def scannedMax (scores : NodeScoreList) : Int := (scanMinMax scores).2

/-- The divisor `max - min` of the second loop. -/
def divisor (scores : NodeScoreList) : Int :=
  sub64 (scannedMax scores) (adjustedMin scores)

/-- The right-hand side of the assignment in the second loop:
`(score.Score - min) * framework.MaxNodeScore / (max - min)`. -/
def rescale (min max : Int) (score : Int) : Option Int :=
  div64 (mul64 (sub64 score min) MaxNodeScore) (sub64 max min)

/-- The second loop of `NormalizeScore`; `none` when an iteration panics. -/
def rescaleLoop (min max : Int) : NodeScoreList → Option NodeScoreList
  | [] => some []
  | score :: rest =>
    match rescale min max score.Score with
    | none => none
    | some v =>
      match rescaleLoop min max rest with
      | none => none
      | some out => some ({ score with Score := v } :: out)

/-- Source: `func (s *TestScheduling) NormalizeScore(ctx, state, p, scores)`: the rewritten
`scores` slice and the returned status; `none` when the function panics. -/
def NormalizeScore (_s : TestScheduling) (_p : Pod) (scores : NodeScoreList) :
    Option (NodeScoreList × Status) :=
  match rescaleLoop (adjustedMin scores) (scannedMax scores) scores with
  | none => none
  | some out => some (out, NewStatus Code.Success [""])

/-- The value `min - 1` resp. `min` takes in exact (unbounded) integer arithmetic. -/
def exactMin (scores : NodeScoreList) : Int :=
  let mm := scanMinMax scores
  if mm.2 = mm.1 then mm.1 - 1 else mm.1

/-- Every raw score of the batch is an `int64` value. -/
def Int64Batch (scores : NodeScoreList) : Prop :=
  ∀ e ∈ scores, fitsInt64 e.Score

instance (scores : NodeScoreList) : Decidable (Int64Batch scores) := by
  unfold Int64Batch; infer_instance

/-- No `int64` overflow occurs when `NormalizeScore` runs on the batch: the raw
scores are `int64` values and the exact results of `min - 1`, `score - min`,
`(score - min) * MaxNodeScore` and `max - min` are all representable. (The
quotient of representable values by a positive divisor is representable.) -/
def NoOverflow (scores : NodeScoreList) : Prop :=
  Int64Batch scores ∧ fitsInt64 (exactMin scores) ∧
  ∀ e ∈ scores,
    fitsInt64 (e.Score - exactMin scores) ∧
    fitsInt64 ((e.Score - exactMin scores) * MaxNodeScore) ∧
    fitsInt64 (scannedMax scores - exactMin scores)

instance (scores : NodeScoreList) : Decidable (NoOverflow scores) := by
  unfold NoOverflow; infer_instance

/-- The quotient the second loop assigns when nothing overflows, in exact integer
arithmetic. -/
def exactRescale (scores : NodeScoreList) (score : Int) : Int :=
  (score - exactMin scores) * MaxNodeScore / (scannedMax scores - exactMin scores)

/-- The minimum raw score observed in the batch (`none` for an empty batch). -/
def batchMin : NodeScoreList → Option Int
  | [] => none
  | x :: rest => some (rest.foldl (fun m e => if e.Score < m then e.Score else m) x.Score)

/-- The maximum raw score observed in the batch (`none` for an empty batch). -/
def batchMax : NodeScoreList → Option Int
  | [] => none
  | x :: rest => some (rest.foldl (fun m e => if e.Score > m then e.Score else m) x.Score)

/-- The min–max normalisation as the specification words it (and as the comment
above `ScoreExtensions` describes it): output `(s − min) * M / (max − min)` with
`min` / `max` the minimum / maximum raw scores observed in the batch. Only used for
batches whose maximum differs from the minimum. -/
def minMaxReference (scores : NodeScoreList) : NodeScoreList :=
  match batchMin scores, batchMax scores with
  | some lo, some hi =>
    scores.map (fun e => { e with Score := (e.Score - lo) * MaxNodeScore / (hi - lo) })
  | _, _ => scores

/-! ## Permit -/

/-- Go `time.Duration`: a count of nanoseconds. -/
abbrev Duration := Int

/-- Go `time.Second`. -/
def Second : Duration := 1000000000

/-- Source: `func (s *TestScheduling) Permit(ctx, state, p, nodeName)`. -/
def Permit (s : TestScheduling) (_p : Pod) (_nodeName : String) : Status × Duration :=
  match s.fac.GetPod "default" "nginx-66b6c48dd5-t7jph" with
  | .error _ => (NewStatus Code.Wait [], mul64 Second 10)
  | .ok _ => (NewStatus Code.Success [], 0)

/-- The value the second loop assigns to an entry with raw score `score`, in the
`int64` arithmetic of the program (the division is defined: the divisor is not `0`). -/
def wrappedRescale (scores : NodeScoreList) (score : Int) : Int :=
  wrap64 (Int.tdiv (mul64 (sub64 score (adjustedMin scores)) MaxNodeScore)
    (sub64 (scannedMax scores) (adjustedMin scores)))

/-! ## The zero-seeded reference of the specification -/

/-- The value `lo = min(0, all raw scores)` of the specification. -/
def zeroSeededLo (scores : NodeScoreList) : Int :=
  scores.foldr (fun e m => min e.Score m) 0

/-- The value `hi = max(0, all raw scores)` of the specification. -/
def zeroSeededHi (scores : NodeScoreList) : Int :=
  scores.foldr (fun e m => max e.Score m) 0

/-- The value of `lo` after "`lo` replaced by `lo - 1` when `hi == lo`". -/
def zeroSeededAdjustedLo (scores : NodeScoreList) : Int :=
  if zeroSeededHi scores = zeroSeededLo scores then zeroSeededLo scores - 1
  else zeroSeededLo scores

/-- The literal reference of the specification: every score `s` becomes
`(s - lo) * 100 / (hi - lo)` with integer division, in exact (unbounded) integer
arithmetic. The dividend is never negative and the divisor is at least `1`, so the
rounding direction of the division plays no role. -/
def zeroSeededReference (scores : NodeScoreList) : NodeScoreList :=
  scores.map (fun e =>
    { e with Score := (e.Score - zeroSeededAdjustedLo scores) * 100
        / (zeroSeededHi scores - zeroSeededAdjustedLo scores) })

/-! ## `float64` arithmetic -/

/-- Values of Go's `float64`: a finite value is given by its exact rational value
(the two signed zeros are identified), besides the infinities and NaN. -/
inductive Float64 where
  | finite (q : ℚ)
  | inf (negative : Bool)
  | nan
  deriving DecidableEq

/-- The binary exponent of the binade of `q`, clamped from below at the exponent of
the subnormal range. -/
def binadeExp (q : ℚ) : Int := max (Int.log 2 |q|) (-1022)

/-- The spacing of `float64` values in the binade of `q` (53 bits of precision). -/
def ulp (q : ℚ) : ℚ := 2 ^ (binadeExp q - 52)

/-- Rounding of a rational to the nearest integer, ties to the even one. -/
def roundHalfEven (x : ℚ) : Int :=
  if x - ⌊x⌋ < 1 / 2 then ⌊x⌋
  else if 1 / 2 < x - ⌊x⌋ then ⌊x⌋ + 1
  else if ⌊x⌋ % 2 = 0 then ⌊x⌋ else ⌊x⌋ + 1

/-- Rounding of a rational to the nearest multiple of the spacing of its binade,
ties to even (the exponent range is not yet limited from above). -/
def roundToGrid (q : ℚ) : ℚ := roundHalfEven (q / ulp q) * ulp q

/-- IEEE 754 round-to-nearest-even of an exact result to `float64`; a rounded
magnitude of `2^1024` or more overflows to an infinity. -/
def round64 (q : ℚ) : Float64 :=
  if 2 ^ 1024 ≤ |roundToGrid q| then Float64.inf (decide (q < 0))
  else Float64.finite (roundToGrid q)

/-- Go `a * b` on `float64`. -/
def mulFloat64 : Float64 → Float64 → Float64
  | .finite a, .finite b => round64 (a * b)
  | .nan, _ => .nan
  | _, .nan => .nan
  | .inf sa, .finite b => if b = 0 then .nan else .inf (xor sa (decide (b < 0)))
  | .finite a, .inf sb => if a = 0 then .nan else .inf (xor (decide (a < 0)) sb)
  | .inf sa, .inf sb => .inf (xor sa sb)

/-- Go `int64(x)` for a `float64`: the fraction is discarded (truncation towards
zero). For a value that `int64` cannot represent the language leaves the result to
the implementation; the embedding takes the amd64 result `MinInt64`. -/
def toInt64 : Float64 → Int
  | .finite q =>
    if fitsInt64 (if 0 ≤ q then ⌊q⌋ else ⌈q⌉) then (if 0 ≤ q then ⌊q⌋ else ⌈q⌉)
    else -(2 ^ 63)
  | _ => -(2 ^ 63)

/-- A Go floating-point constant assigned to a `float64`: the exact decimal value
rounded to the nearest `float64`. -/
def float64Const (q : ℚ) : Float64 := round64 q

/-! ## Cycle state, `PreScore` and `Score` -/

/-- A Go `map[string]T`, as its lookup function. -/
abbrev GoMap (α : Type) := String → Option α

/-- Go `make(map[string]T)`. -/
def GoMap.make {α : Type} : GoMap α := fun _ => none

/-- Go `m[k] = v`. -/
def GoMap.set {α : Type} (m : GoMap α) (k : String) (v : α) : GoMap α :=
  fun k2 => if k2 = k then some v else m k2

/-- The snapshot `type NodeMem struct { m map[string]float64 }`. -/
structure NodeMem where
  m : GoMap Float64

/-- A value of the interface `framework.StateData` held by the cycle state: a
`*NodeMem`, or a value of some other type (of another plugin). -/
inductive StateData where
  | ofNodeMem (nm : NodeMem)
  | ofOther (typeName : String)

/-- Modelled from the spec: `framework.CycleState`, the per-cycle keyed store
supplied by the scheduler framework. -/
structure CycleState where
  storage : GoMap StateData

/-- Modelled from the spec: `CycleState.Read(key)`; an absent key is the error
`"not found"`. -/
def CycleState.Read (state : CycleState) (key : String) : Except String StateData :=
  match state.storage key with
  | some v => .ok v
  | none => .error "not found"

/-- Modelled from the spec: `CycleState.Write(key, val)`. -/
def CycleState.Write (state : CycleState) (key : String) (val : StateData) : CycleState :=
  { storage := GoMap.set state.storage key val }

/-- The fields of `v1.Node` that identify a candidate host. -/
structure Node where
  Name : String
  Labels : List (String × String)
  deriving DecidableEq, Repr

/-- The snapshot built by `PreScore`: `node-01 ↦ 0.4`, `node-02 ↦ 0.6`. -/
def preScoreSnapshot : NodeMem :=
  { m := GoMap.set (GoMap.set GoMap.make "node-01" (float64Const (4 / 10)))
      "node-02" (float64Const (6 / 10)) }

/-- Source: `func (s *TestScheduling) PreScore(ctx, state, pod, nodes)`: the cycle
state after the call and the returned status. -/
def PreScore (_s : TestScheduling) (state : CycleState) (_pod : Pod) (_nodes : List Node) :
    CycleState × Status :=
  (state.Write "nodeMem" (.ofNodeMem preScoreSnapshot), NewStatus Code.Success [])

/-- The expression `int64(max * per)` of `Score`, with `max := 50.0`. -/
def rawScore (per : Float64) : Int := toInt64 (mulFloat64 (.finite 50) per)

/-- Source: `func (s *TestScheduling) Score(ctx, state, p, nodeName)`; `none` when the
unchecked type assertion `getNodeMem.(*NodeMem)` panics. -/
def Score (_s : TestScheduling) (state : CycleState) (_p : Pod) (nodeName : String) :
    Option (Int × Status) :=
  match state.Read "nodeMem" with
  | .error _ => some (0, NewStatus Code.Unschedulable [])
  | .ok (.ofOther _) => none
  | .ok (.ofNodeMem nm) =>
    match nm.m nodeName with
    | some per => some (rawScore per, NewStatus Code.Success [])
    | none => some (5, NewStatus Code.Success [])

/-- Modelled from the spec: `Status.Message()` of the scheduler framework, the
reasons joined by `", "`. -/
def Status.Message (st : Status) : String := String.intercalate ", " st.reasons

/-- The empty cycle state. -/
def emptyState : CycleState := { storage := GoMap.make }

/-! ## Fixtures used by the concrete evaluations -/

/-- A lister over a fixed set of pods: `ListPods` filters by namespace, `GetPod`
answers "not found" for an unknown name. -/
def listerOf (pods : List Pod) : PodLister where
  ListPods := fun ns => .ok (pods.filter (fun q => q.Namespace = ns))
  GetPod := fun ns name =>
    match pods.find? (fun q => q.Namespace = ns ∧ q.Name = name) with
    | some q => .ok q
    | none => .error (.NotFound ("pod \"" ++ name ++ "\" not found"))

/-- A lister whose every call fails with a transport error. -/
def brokenLister (msg : String) : PodLister where
  ListPods := fun _ => .error (.Unavailable msg)
  GetPod := fun _ _ => .error (.Unavailable msg)

/-- The list of `n` pods `pod-0 … pod-(n-1)` in namespace `ns`. -/
def podsIn (ns : String) (n : Nat) : List Pod :=
  (List.range n).map (fun i => { Namespace := ns, Name := "pod-" ++ toString i })

/-- The plugin over a lister and a threshold. -/
def pluginWith (fac : PodLister) (maxPods : Int) : TestScheduling :=
  { fac := fac, args := { MaxPods := maxPods } }

/-- The pending pod of the scenarios. -/
def pendingPod : Pod := { Namespace := "default", Name := "pending" }


/-! ## Admission gate (`PreFilter`) -/

/-- After a successful listing `PreFilter` is the threshold comparison. -/
theorem PreFilter_of_listed (s : TestScheduling) (p : Pod) (pods : List Pod)
    (hl : s.fac.ListPods p.Namespace = .ok pods) :
    PreFilter s p =
      if (pods.length : Int) > s.args.MaxPods then
        NewStatus Code.Unschedulable ["pod数量超过了最大限制"]
      else NewStatus Code.Success [] := by
  simp only [PreFilter, hl]

/-- C1. For a threshold `MaxPods ≥ 0` and a successfully listed namespace holding
`c = pods.length` pods, `PreFilter` returns `Success` iff `c ≤ MaxPods` and
`Unschedulable` iff `c > MaxPods`; `c = MaxPods` admits and `c = MaxPods + 1`
rejects. -/
theorem PreFilter_admits_iff_count_le (s : TestScheduling) (p : Pod) (pods : List Pod)
    (ht : 0 ≤ s.args.MaxPods) (hl : s.fac.ListPods p.Namespace = .ok pods) :
    ((PreFilter s p).code = Code.Success ↔ (pods.length : Int) ≤ s.args.MaxPods) ∧
    ((PreFilter s p).code = Code.Unschedulable ↔ (pods.length : Int) > s.args.MaxPods) ∧
    ((pods.length : Int) = s.args.MaxPods → PreFilter s p = NewStatus Code.Success []) ∧
    ((pods.length : Int) = s.args.MaxPods + 1 →
      (PreFilter s p).code = Code.Unschedulable) := by
  have _ := ht
  rw [PreFilter_of_listed s p pods hl]
  by_cases h : (pods.length : Int) > s.args.MaxPods
  · rw [if_pos h]
    refine ⟨⟨fun hc => ?_, fun hle => ?_⟩, ⟨fun _ => h, fun _ => rfl⟩, fun he => ?_,
      fun _ => rfl⟩
    · cases hc
    · omega
    · omega
  · rw [if_neg h]
    refine ⟨⟨fun _ => by omega, fun _ => rfl⟩, ⟨fun hc => ?_, fun hgt => absurd hgt h⟩,
      fun _ => rfl, fun he => ?_⟩
    · cases hc
    · omega

/-- Scenario A through C1: `maxPods = 5` with 5 pods in the namespace admits, with
6 pods rejects. -/
theorem PreFilter_admits_iff_count_le_witness :
    (PreFilter (pluginWith (listerOf (podsIn "default" 5)) 5) pendingPod).code
        = Code.Success ∧
    (PreFilter (pluginWith (listerOf (podsIn "default" 6)) 5) pendingPod).code
        = Code.Unschedulable :=
  ⟨(PreFilter_admits_iff_count_le (pluginWith (listerOf (podsIn "default" 5)) 5)
      pendingPod (podsIn "default" 5) (by decide) rfl).1.2 (by decide),
   (PreFilter_admits_iff_count_le (pluginWith (listerOf (podsIn "default" 6)) 5)
      pendingPod (podsIn "default" 6) (by decide) rfl).2.1.2 (by decide)⟩

/-- C10, counterexample. With the zero threshold of an absent `maxPods` and an empty
namespace (listed count `0`), `PreFilter` returns `Success`: the comparison
`0 > 0` is false. -/
theorem PreFilter_zero_threshold_counterexample :
    ({ fac := listerOf [], args := Args.zero } : TestScheduling).args.MaxPods = 0 ∧
    (listerOf []).ListPods pendingPod.Namespace = .ok [] ∧
    PreFilter { fac := listerOf [], args := Args.zero } pendingPod
      = NewStatus Code.Success [] := by
  refine ⟨rfl, rfl, ?_⟩
  rw [PreFilter_of_listed _ _ [] rfl]
  decide

/-- C10, amended. With `MaxPods` absent or zero, `PreFilter` rejects exactly the
listings with at least one pod: the status is `Unschedulable` iff the listed count
is `≥ 1`, and `Success` iff the namespace is listed empty. -/
theorem PreFilter_zero_threshold (s : TestScheduling) (p : Pod) (pods : List Pod)
    (hz : s.args = Args.zero) (hl : s.fac.ListPods p.Namespace = .ok pods) :
    ((PreFilter s p).code = Code.Unschedulable ↔ 1 ≤ pods.length) ∧
    ((PreFilter s p).code = Code.Success ↔ pods = []) := by
  rw [PreFilter_of_listed s p pods hl, hz]
  cases pods with
  | nil => simp [Args.zero, NewStatus]
  | cons q rest =>
    have h : ((q :: rest).length : Int) > Args.zero.MaxPods := by
      simp only [Args.zero, List.length_cons]; omega
    rw [if_pos h]
    simp [NewStatus]

/-- C10 amended, at a concrete input: threshold 0 and one listed pod rejects. -/
theorem PreFilter_zero_threshold_witness :
    (PreFilter { fac := listerOf (podsIn "default" 1), args := Args.zero } pendingPod).code
      = Code.Unschedulable :=
  (PreFilter_zero_threshold { fac := listerOf (podsIn "default" 1), args := Args.zero }
    pendingPod (podsIn "default" 1) rfl rfl).1.2 (by decide)

/-! ## Eligibility filter (`Filter`) -/

/-- The loop of `Filter` ends in one of its two statuses. -/
theorem FilterLoop_cases (labels : List (String × String)) :
    FilterLoop labels = NewStatus Code.Success [] ∨
    FilterLoop labels = NewStatus Code.Unschedulable ["设置了不可调度的标签"] := by
  induction labels with
  | nil => exact Or.inl rfl
  | cons kv rest ih =>
    obtain ⟨k, v⟩ := kv
    unfold FilterLoop
    by_cases h : k = "scheduling" ∧ v ≠ "true"
    · rw [if_pos h]; exact Or.inr rfl
    · rw [if_neg h]; exact ih

/-- The loop of `Filter` rejects exactly when some visited pair is the gating key
with another value than `"true"`. -/
theorem FilterLoop_unschedulable_iff (labels : List (String × String)) :
    (FilterLoop labels).code = Code.Unschedulable ↔
      ∃ v, ("scheduling", v) ∈ labels ∧ v ≠ "true" := by
  induction labels with
  | nil => simp [FilterLoop, NewStatus]
  | cons kv rest ih =>
    obtain ⟨k, v⟩ := kv
    unfold FilterLoop
    by_cases h : k = "scheduling" ∧ v ≠ "true"
    · rw [if_pos h]
      refine ⟨fun _ => ⟨v, ?_, h.2⟩, fun _ => rfl⟩
      rw [h.1]
      exact List.mem_cons_self _ _
    · rw [if_neg h, ih]
      constructor
      · rintro ⟨w, hw, hne⟩
        exact ⟨w, List.mem_cons_of_mem _ hw, hne⟩
      · rintro ⟨w, hw, hne⟩
        rcases List.mem_cons.mp hw with heq | hmem
        · exact absurd ⟨(Prod.mk.inj heq).1.symm, (Prod.mk.inj heq).2 ▸ hne⟩ h
        · exact ⟨w, hmem, hne⟩

/-- C7. `Filter` returns `Unschedulable` iff the host's labels contain the key
`"scheduling"` with a value other than exactly `"true"`, and `Success` otherwise; a
host without the key is eligible. Scenario B: `{scheduling: "false"}` is ineligible,
`{}` and `{scheduling: "true"}` are eligible; the comparison is case-sensitive
(`"True"` is not accepted, the key `"Scheduling"` does not gate). -/
theorem Filter_unschedulable_iff_gating_label (s : TestScheduling) (pod : Pod)
    (nodeInfo : NodeInfo) :
    ((Filter s pod nodeInfo).code = Code.Unschedulable ↔
      ∃ v, ("scheduling", v) ∈ nodeInfo.Labels ∧ v ≠ "true") ∧
    ((Filter s pod nodeInfo).code = Code.Success ↔
      ¬ ∃ v, ("scheduling", v) ∈ nodeInfo.Labels ∧ v ≠ "true") ∧
    ((∀ kv ∈ nodeInfo.Labels, kv.1 ≠ "scheduling") →
      Filter s pod nodeInfo = NewStatus Code.Success []) ∧
    (Filter s pod { nodeInfo with Labels := [("scheduling", "false")] }).code
      = Code.Unschedulable ∧
    (Filter s pod { nodeInfo with Labels := [] }).code = Code.Success ∧
    (Filter s pod { nodeInfo with Labels := [("scheduling", "true")] }).code
      = Code.Success ∧
    (Filter s pod { nodeInfo with Labels := [("scheduling", "True")] }).code
      = Code.Unschedulable ∧
    (Filter s pod { nodeInfo with Labels := [("Scheduling", "false")] }).code
      = Code.Success := by
  have hiff := FilterLoop_unschedulable_iff nodeInfo.Labels
  have hcases := FilterLoop_cases nodeInfo.Labels
  refine ⟨hiff, ?_, ?_, ?_, ?_, ?_, ?_, ?_⟩
  rotate_left 2
  · show (FilterLoop [("scheduling", "false")]).code = _
    decide
  · show (FilterLoop []).code = _
    decide
  · show (FilterLoop [("scheduling", "true")]).code = _
    decide
  · show (FilterLoop [("scheduling", "True")]).code = _
    decide
  · show (FilterLoop [("Scheduling", "false")]).code = _
    decide
  · unfold Filter
    rw [← hiff]
    rcases hcases with h | h <;> rw [h] <;> simp [NewStatus]
  · intro hno
    unfold Filter
    rcases hcases with h | h
    · exact h
    · exfalso
      have hu : (FilterLoop nodeInfo.Labels).code = Code.Unschedulable := by rw [h]; rfl
      obtain ⟨v, hv, _⟩ := hiff.mp hu
      exact hno _ hv rfl

/-- C7 at a concrete host: labels without the gating key, in either order. -/
theorem Filter_unschedulable_iff_gating_label_witness :
    Filter (pluginWith (listerOf []) 5) pendingPod
      { Name := "node-01", Labels := [("zone", "a"), ("kubernetes.io/os", "linux")] }
      = NewStatus Code.Success [] :=
  (Filter_unschedulable_iff_gating_label (pluginWith (listerOf []) 5) pendingPod
    { Name := "node-01", Labels := [("zone", "a"), ("kubernetes.io/os", "linux")] }).2.2.1
    (by decide)

/-! ## Commit gate (`Permit`) -/

/-- C8, the code at a lister failure. When the dependency lookup fails with a
transport error (not "not found"), `Permit` returns `Wait` with the 10 second
delay, the same answer as for an absent pod, and not an `Error` status. -/
theorem Permit_lister_failure_waits :
    (brokenLister "connection refused").GetPod "default" "nginx-66b6c48dd5-t7jph"
      = .error (.Unavailable "connection refused") ∧
    Permit (pluginWith (brokenLister "connection refused") 5) pendingPod "node-01"
      = (NewStatus Code.Wait [], 10000000000) ∧
    (Permit (pluginWith (brokenLister "connection refused") 5) pendingPod "node-01").1.code
      ≠ Code.Error := by
  refine ⟨rfl, ?_, ?_⟩ <;> decide

/-- C9. If the dependency pod `default/nginx-66b6c48dd5-t7jph` is absent, `Permit`
returns `Wait` with the fixed delay `10 * time.Second` (non-zero); if it is present,
`Permit` returns `Success` with delay `0`; the pending pod and the selected host
name do not influence the outcome. -/
theorem Permit_found_or_absent (s : TestScheduling) (p : Pod) (nodeName : String) :
    (∀ msg, s.fac.GetPod "default" "nginx-66b6c48dd5-t7jph" = .error (.NotFound msg) →
      Permit s p nodeName = (NewStatus Code.Wait [], 10 * Second)) ∧
    (∀ q, s.fac.GetPod "default" "nginx-66b6c48dd5-t7jph" = .ok q →
      Permit s p nodeName = (NewStatus Code.Success [], 0)) ∧
    (10 * Second = 10000000000 ∧ 10 * Second ≠ 0) ∧
    (∀ (p2 : Pod) (nodeName2 : String), Permit s p2 nodeName2 = Permit s p nodeName) := by
  refine ⟨?_, ?_, ⟨by decide, by decide⟩, fun _ _ => rfl⟩
  · intro msg h
    simp only [Permit, h]
    decide
  · intro q h
    simp only [Permit, h]

/-- Scenario E through C9: with the dependency absent the answer is `Wait` and ten
seconds; with it present, `Success` and no delay. -/
theorem Permit_found_or_absent_witness :
    Permit (pluginWith (listerOf []) 5) pendingPod "node-01"
      = (NewStatus Code.Wait [], 10 * Second) ∧
    Permit (pluginWith (listerOf [⟨"default", "nginx-66b6c48dd5-t7jph"⟩]) 5) pendingPod
      "node-01" = (NewStatus Code.Success [], 0) :=
  ⟨(Permit_found_or_absent (pluginWith (listerOf []) 5) pendingPod "node-01").1 _ rfl,
   (Permit_found_or_absent (pluginWith (listerOf [⟨"default", "nginx-66b6c48dd5-t7jph"⟩]) 5)
      pendingPod "node-01").2.1 ⟨"default", "nginx-66b6c48dd5-t7jph"⟩ (by rfl)⟩

/-! ## Score normalisation (`NormalizeScore`) -/

/-- The reduction `wrap64` is the identity on `int64` values. -/
theorem wrap64_of_fits (x : Int) (h : fitsInt64 x) : wrap64 x = x := by
  unfold fitsInt64 at h
  unfold wrap64
  omega

/-- The reduction `wrap64` always lands in the `int64` range. -/
theorem fitsInt64_wrap64 (x : Int) : fitsInt64 (wrap64 x) := by
  unfold fitsInt64 wrap64
  omega

/-- The scan loop started from `(a, b)`: the result brackets the start values and
every score, and each component is the start value or one of the scores. -/
theorem scan_foldl_spec (scores : NodeScoreList) :
    ∀ a b : Int,
      (scores.foldl scanStep (a, b)).1 ≤ a ∧ b ≤ (scores.foldl scanStep (a, b)).2 ∧
      (∀ e ∈ scores, (scores.foldl scanStep (a, b)).1 ≤ e.Score ∧
        e.Score ≤ (scores.foldl scanStep (a, b)).2) ∧
      ((scores.foldl scanStep (a, b)).1 = a ∨
        ∃ e ∈ scores, (scores.foldl scanStep (a, b)).1 = e.Score) ∧
      ((scores.foldl scanStep (a, b)).2 = b ∨
        ∃ e ∈ scores, (scores.foldl scanStep (a, b)).2 = e.Score) := by
  induction scores with
  | nil => intro a b; simp
  | cons x rest ih =>
    intro a b
    rw [List.foldl_cons]
    have hstep : scanStep (a, b) x =
        (if x.Score < a then x.Score else a, if x.Score > b then x.Score else b) := rfl
    have ha : (if x.Score < a then x.Score else a) ≤ a ∧
        (if x.Score < a then x.Score else a) ≤ x.Score ∧
        ((if x.Score < a then x.Score else a) = a ∨
          (if x.Score < a then x.Score else a) = x.Score) := by
      split_ifs <;> omega
    have hb : b ≤ (if x.Score > b then x.Score else b) ∧
        x.Score ≤ (if x.Score > b then x.Score else b) ∧
        ((if x.Score > b then x.Score else b) = b ∨
          (if x.Score > b then x.Score else b) = x.Score) := by
      split_ifs <;> omega
    rw [hstep]
    generalize (if x.Score < a then x.Score else a) = a2 at ha
    generalize (if x.Score > b then x.Score else b) = b2 at hb
    obtain ⟨h1, h2, h3, h4, h5⟩ := ih a2 b2
    refine ⟨by omega, by omega, ?_, ?_, ?_⟩
    · intro e he
      rcases List.mem_cons.mp he with rfl | hmem
      · constructor <;> omega
      · exact h3 e hmem
    · rcases h4 with h | ⟨e, he, h⟩
      · rcases ha.2.2 with h6 | h6
        · exact Or.inl (h.trans h6)
        · exact Or.inr ⟨x, List.mem_cons_self _ _, h.trans h6⟩
      · exact Or.inr ⟨e, List.mem_cons_of_mem _ he, h⟩
    · rcases h5 with h | ⟨e, he, h⟩
      · rcases hb.2.2 with h6 | h6
        · exact Or.inl (h.trans h6)
        · exact Or.inr ⟨x, List.mem_cons_self _ _, h.trans h6⟩
      · exact Or.inr ⟨e, List.mem_cons_of_mem _ he, h⟩

/-- The scanned `min` is at most `0` and the scanned `max` at least `0`. -/
theorem scanMinMax_seed (scores : NodeScoreList) :
    (scanMinMax scores).1 ≤ 0 ∧ 0 ≤ (scanMinMax scores).2 :=
  ⟨(scan_foldl_spec scores 0 0).1, (scan_foldl_spec scores 0 0).2.1⟩

/-- Every score lies between the scanned `min` and `max`. -/
theorem scanMinMax_bounds (scores : NodeScoreList) (e : NodeScore) (he : e ∈ scores) :
    (scanMinMax scores).1 ≤ e.Score ∧ e.Score ≤ (scanMinMax scores).2 :=
  (scan_foldl_spec scores 0 0).2.2.1 e he

/-- On a batch of `int64` scores the scanned `min` and `max` are `int64` values. -/
theorem scanMinMax_fits (scores : NodeScoreList) (hb : Int64Batch scores) :
    fitsInt64 (scanMinMax scores).1 ∧ fitsInt64 (scanMinMax scores).2 := by
  obtain ⟨_, _, _, h4, h5⟩ := scan_foldl_spec scores 0 0
  unfold scanMinMax
  constructor
  · rcases h4 with h | ⟨e, he, h⟩
    · rw [h]; decide
    · rw [h]; exact hb e he
  · rcases h5 with h | ⟨e, he, h⟩
    · rw [h]; decide
    · rw [h]; exact hb e he

/-- The degenerate-case adjustment never wraps: `max == min` forces both to be `0`. -/
theorem adjustedMin_eq_exactMin (scores : NodeScoreList) :
    adjustedMin scores = exactMin scores := by
  obtain ⟨hlo, hhi⟩ := scanMinMax_seed scores
  unfold adjustedMin exactMin
  simp only
  by_cases h : (scanMinMax scores).2 = (scanMinMax scores).1
  · rw [if_pos h, if_pos h]
    have h0 : (scanMinMax scores).1 = 0 := by omega
    rw [h0]
    decide
  · rw [if_neg h, if_neg h]

/-- In exact arithmetic `min` is at most every score and strictly below `max`. -/
theorem exactMin_spec (scores : NodeScoreList) :
    exactMin scores ≤ 0 ∧ 1 ≤ scannedMax scores - exactMin scores ∧
    ∀ e ∈ scores, 0 ≤ e.Score - exactMin scores ∧
      e.Score - exactMin scores ≤ scannedMax scores - exactMin scores := by
  obtain ⟨hlo, hhi⟩ := scanMinMax_seed scores
  have hmin : exactMin scores ≤ (scanMinMax scores).1 := by
    unfold exactMin
    simp only
    split_ifs <;> omega
  have hgap : 1 ≤ scannedMax scores - exactMin scores := by
    unfold exactMin scannedMax
    simp only
    split_ifs with h <;> omega
  refine ⟨by omega, hgap, ?_⟩
  intro e he
  obtain ⟨h1, h2⟩ := scanMinMax_bounds scores e he
  unfold scannedMax
  constructor <;> omega

/-- Absent overflow, the right-hand side of the assignment is the exact quotient. -/
theorem rescale_exact (lo hi sc : Int) (h0 : 0 ≤ sc - lo) (hd : 1 ≤ hi - lo)
    (f1 : fitsInt64 (sc - lo)) (f2 : fitsInt64 ((sc - lo) * MaxNodeScore))
    (f3 : fitsInt64 (hi - lo)) :
    rescale lo hi sc = some ((sc - lo) * MaxNodeScore / (hi - lo)) := by
  have _ := f1
  have hnum : 0 ≤ (sc - lo) * MaxNodeScore := Int.mul_nonneg h0 (by decide)
  have hq0 : 0 ≤ (sc - lo) * MaxNodeScore / (hi - lo) := Int.ediv_nonneg hnum (by omega)
  have hq1 : (sc - lo) * MaxNodeScore / (hi - lo) ≤ (sc - lo) * MaxNodeScore :=
    Int.ediv_le_self _ hnum
  have fq : fitsInt64 ((sc - lo) * MaxNodeScore / (hi - lo)) := by
    unfold fitsInt64 at f2 ⊢
    constructor <;> omega
  unfold rescale div64 mul64 sub64
  rw [wrap64_of_fits _ f1, wrap64_of_fits _ f2, wrap64_of_fits _ f3]
  rw [if_neg (by omega), Int.tdiv_eq_ediv hnum (by omega), wrap64_of_fits _ fq]

/-- When every iteration of the second loop succeeds with value `g score`, the loop
rewrites each entry's score to `g score` and nothing else. -/
theorem rescaleLoop_eq_map (lo hi : Int) (g : Int → Int) (scores : NodeScoreList)
    (h : ∀ e ∈ scores, rescale lo hi e.Score = some (g e.Score)) :
    rescaleLoop lo hi scores
      = some (scores.map (fun e => { e with Score := g e.Score })) := by
  induction scores with
  | nil => rfl
  | cons x rest ih =>
    have hx := h x (List.mem_cons_self _ _)
    have hrest := ih (fun e he => h e (List.mem_cons_of_mem _ he))
    simp only [rescaleLoop, hx, hrest, List.map_cons]

/-- Absent overflow, `NormalizeScore` succeeds and rewrites every score to its exact
quotient. -/
theorem NormalizeScore_of_noOverflow (s : TestScheduling) (p : Pod) (scores : NodeScoreList)
    (hno : NoOverflow scores) :
    NormalizeScore s p scores =
      some (scores.map (fun e => { e with Score := exactRescale scores e.Score }),
        NewStatus Code.Success [""]) := by
  obtain ⟨_, _, hall⟩ := hno
  obtain ⟨_, hgap, hent⟩ := exactMin_spec scores
  have hloop := rescaleLoop_eq_map (exactMin scores) (scannedMax scores)
    (exactRescale scores) scores (fun e he =>
      rescale_exact _ _ _ (hent e he).1 hgap (hall e he).1 (hall e he).2.1 (hall e he).2.2)
  unfold NormalizeScore
  rw [adjustedMin_eq_exactMin, hloop]

/-- Absent overflow every exact quotient of an entry lies in `[0, MaxNodeScore]`. -/
theorem exactRescale_bounds (scores : NodeScoreList) (e : NodeScore) (he : e ∈ scores) :
    0 ≤ exactRescale scores e.Score ∧ exactRescale scores e.Score ≤ MaxNodeScore := by
  obtain ⟨_, hgap, hent⟩ := exactMin_spec scores
  obtain ⟨h0, h1⟩ := hent e he
  unfold exactRescale
  constructor
  · exact Int.ediv_nonneg (Int.mul_nonneg h0 (by decide)) (by omega)
  · apply Int.ediv_le_of_le_mul (by omega)
    rw [Int.mul_comm]
    exact Int.mul_le_mul_of_nonneg_left h1 (by decide)

/-- C2. For every batch with at least one entry on which no `int64` overflow occurs,
`NormalizeScore` returns (status `Success`) and every entry of the rewritten batch
has its score in `[0, MaxNodeScore]`, `MaxNodeScore = 100`. -/
theorem NormalizeScore_within_bounds (s : TestScheduling) (p : Pod) (scores : NodeScoreList)
    (hne : scores ≠ []) (hno : NoOverflow scores) :
    ∃ out, NormalizeScore s p scores = some (out, NewStatus Code.Success [""]) ∧
      out.length = scores.length ∧
      ∀ e ∈ out, 0 ≤ e.Score ∧ e.Score ≤ MaxNodeScore ∧ e.Score ≤ 100 := by
  have _ := hne
  refine ⟨_, NormalizeScore_of_noOverflow s p scores hno, by simp, ?_⟩
  intro e he
  obtain ⟨x, hx, rfl⟩ := List.mem_map.mp he
  obtain ⟨h0, h1⟩ := exactRescale_bounds scores x hx
  exact ⟨h0, h1, h1⟩

/-- C2 at the reachable batch `{node-01: 20, node-02: 30, other: 5}`. -/
theorem NormalizeScore_within_bounds_witness :
    ∃ out, NormalizeScore (pluginWith (listerOf []) 5) pendingPod
        [⟨"node-01", 20⟩, ⟨"node-02", 30⟩, ⟨"node-03", 5⟩]
        = some (out, NewStatus Code.Success [""]) ∧
      out.length = 3 ∧
      ∀ e ∈ out, 0 ≤ e.Score ∧ e.Score ≤ MaxNodeScore ∧ e.Score ≤ 100 :=
  NormalizeScore_within_bounds (pluginWith (listerOf []) 5) pendingPod
    [⟨"node-01", 20⟩, ⟨"node-02", 30⟩, ⟨"node-03", 5⟩] (by decide) (by decide)

/-- C3, the code on Scenario C. The scan is seeded with `min = max = 0`, so on the raw
scores `{A:10, B:20, C:30}` it ends with `min = 0` (not the batch minimum `10`) and
the outputs are `{A:33, B:66, C:100}`, while the formula over the observed minimum
and maximum gives `{A:0, B:50, C:100}`. The same happens on the batch
`{20, 30, 5}` that `Score` produces for `node-01`, `node-02` and an unknown host. -/
theorem NormalizeScore_scenario_C_zero_seeded :
    scanMinMax [⟨"A", 10⟩, ⟨"B", 20⟩, ⟨"C", 30⟩] = (0, 30) ∧
    batchMin [⟨"A", 10⟩, ⟨"B", 20⟩, ⟨"C", 30⟩] = some 10 ∧
    batchMax [⟨"A", 10⟩, ⟨"B", 20⟩, ⟨"C", 30⟩] = some 30 ∧
    NormalizeScore (pluginWith (listerOf []) 5) pendingPod
        [⟨"A", 10⟩, ⟨"B", 20⟩, ⟨"C", 30⟩]
      = some ([⟨"A", 33⟩, ⟨"B", 66⟩, ⟨"C", 100⟩], NewStatus Code.Success [""]) ∧
    minMaxReference [⟨"A", 10⟩, ⟨"B", 20⟩, ⟨"C", 30⟩]
      = [⟨"A", 0⟩, ⟨"B", 50⟩, ⟨"C", 100⟩] ∧
    NormalizeScore (pluginWith (listerOf []) 5) pendingPod
        [⟨"node-01", 20⟩, ⟨"node-02", 30⟩, ⟨"node-03", 5⟩]
      = some ([⟨"node-01", 66⟩, ⟨"node-02", 100⟩, ⟨"node-03", 16⟩],
          NewStatus Code.Success [""]) ∧
    minMaxReference [⟨"node-01", 20⟩, ⟨"node-02", 30⟩, ⟨"node-03", 5⟩]
      = [⟨"node-01", 60⟩, ⟨"node-02", 100⟩, ⟨"node-03", 0⟩] := by
  refine ⟨?_, ?_, ?_, ?_, ?_, ?_, ?_⟩ <;> decide

/-- C4, the code on batches without a non-negative score. The scan is seeded with
`max = 0`, so on `{A:-5}` it ends with `max = 0` (not the batch maximum `-5`) and
the entry holding the batch maximum is normalised to `0`, not `100`; the all-equal
batch `{A:-7, B:-7}` maps to `{A:0, B:0}`. (Scenario D, `{A:7, B:7}`, does map to
`{A:100, B:100}`.) -/
theorem NormalizeScore_negative_maximum_maps_to_zero :
    scanMinMax [⟨"A", -5⟩] = (-5, 0) ∧ batchMax [⟨"A", -5⟩] = some (-5) ∧
    NormalizeScore (pluginWith (listerOf []) 5) pendingPod [⟨"A", -5⟩]
      = some ([⟨"A", 0⟩], NewStatus Code.Success [""]) ∧
    NormalizeScore (pluginWith (listerOf []) 5) pendingPod [⟨"A", -7⟩, ⟨"B", -7⟩]
      = some ([⟨"A", 0⟩, ⟨"B", 0⟩], NewStatus Code.Success [""]) ∧
    NormalizeScore (pluginWith (listerOf []) 5) pendingPod [⟨"A", 7⟩, ⟨"B", 7⟩]
      = some ([⟨"A", 100⟩, ⟨"B", 100⟩], NewStatus Code.Success [""]) := by
  refine ⟨?_, ?_, ?_, ?_, ?_⟩ <;> decide

/-- C5, counterexample. On `{A:1, B:2, C:1000}` (no overflow) the raw scores of `A`
and `B` differ, `1 < 2`, but both are normalised to `0`: the truncating division
by `max - min = 1000` merges them. -/
theorem NormalizeScore_strict_order_counterexample :
    NoOverflow [⟨"A", 1⟩, ⟨"B", 2⟩, ⟨"C", 1000⟩] ∧
    NormalizeScore (pluginWith (listerOf []) 5) pendingPod
        [⟨"A", 1⟩, ⟨"B", 2⟩, ⟨"C", 1000⟩]
      = some ([⟨"A", 0⟩, ⟨"B", 0⟩, ⟨"C", 100⟩], NewStatus Code.Success [""]) ∧
    ¬ (∀ (scores out : NodeScoreList) (st : Status) (i j : Nat) (a b a2 b2 : NodeScore),
        NormalizeScore (pluginWith (listerOf []) 5) pendingPod scores = some (out, st) →
        scores[i]? = some a → scores[j]? = some b →
        out[i]? = some a2 → out[j]? = some b2 →
        a.Score < b.Score → a2.Score < b2.Score) := by
  refine ⟨by decide, by decide, fun h => ?_⟩
  have hc := h [⟨"A", 1⟩, ⟨"B", 2⟩, ⟨"C", 1000⟩] [⟨"A", 0⟩, ⟨"B", 0⟩, ⟨"C", 100⟩]
    (NewStatus Code.Success [""]) 0 1 ⟨"A", 1⟩ ⟨"B", 2⟩ ⟨"A", 0⟩ ⟨"B", 0⟩
    (by decide) rfl rfl rfl rfl (by decide)
  exact absurd hc (by decide)

/-- Absent overflow the loop's divisor is the exact difference `max - min`. -/
theorem divisor_of_noOverflow (scores : NodeScoreList) (hno : NoOverflow scores) :
    divisor scores = scannedMax scores - exactMin scores := by
  unfold divisor sub64
  rw [adjustedMin_eq_exactMin]
  apply wrap64_of_fits
  cases scores with
  | nil => decide
  | cons x rest => exact (hno.2.2 x (List.mem_cons_self _ _)).2.2

/-- The exact quotient is monotone in the raw score, and strictly so across a gap of
at least one divisor. -/
theorem exactRescale_mono (scores : NodeScoreList) (x y : Int) (hxy : x ≤ y) :
    exactRescale scores x ≤ exactRescale scores y ∧
    (scannedMax scores - exactMin scores ≤ (y - x) * MaxNodeScore →
      exactRescale scores x < exactRescale scores y) := by
  obtain ⟨_, hgap, _⟩ := exactMin_spec scores
  have hpos : 0 < scannedMax scores - exactMin scores := by omega
  unfold exactRescale
  constructor
  · apply Int.ediv_le_ediv hpos
    exact Int.mul_le_mul_of_nonneg_right (by omega) (by decide)
  · intro hd
    have hstep : (x - exactMin scores) * MaxNodeScore
        + 1 * (scannedMax scores - exactMin scores)
        ≤ (y - exactMin scores) * MaxNodeScore := by
      have e1 : (y - exactMin scores) * MaxNodeScore
          = (x - exactMin scores) * MaxNodeScore + (y - x) * MaxNodeScore := by ring
      rw [e1]
      omega
    have hle := Int.ediv_le_ediv hpos hstep
    rw [Int.add_mul_ediv_right _ _ (by omega)] at hle
    omega

/-- C5, amended. On every batch on which no `int64` overflow occurs, two entries with
raw scores `s_i < s_j` are normalised to `out_i ≤ out_j`; the order is strict,
`out_i < out_j`, whenever `(s_j - s_i) * MaxNodeScore` reaches the loop's divisor
`max - min`. -/
theorem NormalizeScore_order_preserved_weakly (s : TestScheduling) (p : Pod)
    (scores out : NodeScoreList) (st : Status) (i j : Nat) (a b : NodeScore)
    (hno : NoOverflow scores) (hrun : NormalizeScore s p scores = some (out, st))
    (hi : scores[i]? = some a) (hj : scores[j]? = some b) (hlt : a.Score < b.Score) :
    ∃ a2 b2, out[i]? = some a2 ∧ out[j]? = some b2 ∧ a2.Score ≤ b2.Score ∧
      (divisor scores ≤ (b.Score - a.Score) * MaxNodeScore → a2.Score < b2.Score) := by
  rw [NormalizeScore_of_noOverflow s p scores hno] at hrun
  have hout : out = scores.map (fun e => { e with Score := exactRescale scores e.Score }) :=
    ((Prod.mk.inj (Option.some.inj hrun)).1).symm
  obtain ⟨hmono, hstrict⟩ := exactRescale_mono scores a.Score b.Score (by omega)
  refine ⟨{ a with Score := exactRescale scores a.Score },
    { b with Score := exactRescale scores b.Score }, ?_, ?_, hmono, ?_⟩
  · rw [hout, List.getElem?_map, hi]; rfl
  · rw [hout, List.getElem?_map, hj]; rfl
  · intro hd
    rw [divisor_of_noOverflow scores hno] at hd
    exact hstrict hd

/-- C5 amended on Scenario C: `A` (raw 10) and `B` (raw 20) keep their order, strictly
since `(20 - 10) * 100 ≥ 30`. -/
theorem NormalizeScore_order_preserved_weakly_witness :
    ∃ a2 b2, ([⟨"A", 33⟩, ⟨"B", 66⟩, ⟨"C", 100⟩] : NodeScoreList)[0]? = some a2 ∧
      ([⟨"A", 33⟩, ⟨"B", 66⟩, ⟨"C", 100⟩] : NodeScoreList)[1]? = some b2 ∧
      a2.Score ≤ b2.Score ∧
      (divisor [⟨"A", 10⟩, ⟨"B", 20⟩, ⟨"C", 30⟩]
          ≤ ((⟨"B", 20⟩ : NodeScore).Score - (⟨"A", 10⟩ : NodeScore).Score) * MaxNodeScore →
        a2.Score < b2.Score) :=
  NormalizeScore_order_preserved_weakly (pluginWith (listerOf []) 5) pendingPod
    [⟨"A", 10⟩, ⟨"B", 20⟩, ⟨"C", 30⟩] [⟨"A", 33⟩, ⟨"B", 66⟩, ⟨"C", 100⟩]
    (NewStatus Code.Success [""]) 0 1 ⟨"A", 10⟩ ⟨"B", 20⟩
    (by decide) (by decide) rfl rfl (by decide)

/-- C6, counterexample. On the `int64` batch `{A: MaxInt64, B: -1}` the scan ends with
`min = -1`, `max = MaxInt64`; the difference `max - min = 2^63` overflows and the
divisor the loop uses is `MinInt64`, which is not `≥ 1`. -/
theorem divisor_at_least_one_counterexample :
    Int64Batch [⟨"A", 9223372036854775807⟩, ⟨"B", -1⟩] ∧
    scanMinMax [⟨"A", 9223372036854775807⟩, ⟨"B", -1⟩] = (-1, 9223372036854775807) ∧
    divisor [⟨"A", 9223372036854775807⟩, ⟨"B", -1⟩] = -9223372036854775808 ∧
    ¬ (1 ≤ divisor [⟨"A", 9223372036854775807⟩, ⟨"B", -1⟩]) := by
  refine ⟨?_, ?_, ?_, ?_⟩ <;> decide

/-- On `int64` scores the exact difference `max - min` lies in `[1, 2^64 - 1]`. -/
theorem exact_gap_range (scores : NodeScoreList) (hb : Int64Batch scores) :
    1 ≤ scannedMax scores - exactMin scores ∧
    scannedMax scores - exactMin scores ≤ 2 ^ 64 - 1 := by
  obtain ⟨hlo, hhi⟩ := scanMinMax_seed scores
  obtain ⟨flo, fhi⟩ := scanMinMax_fits scores hb
  obtain ⟨_, hgap, _⟩ := exactMin_spec scores
  refine ⟨hgap, ?_⟩
  unfold fitsInt64 at flo fhi
  unfold exactMin scannedMax
  simp only
  split_ifs with h <;> omega

/-- C6, amended. `NormalizeScore` never divides by zero and has no error path: for
every batch of `int64` scores (all-equal, all-zero and empty batches included) the
divisor `max - min` of the rescaling loop is non-zero, every iteration's division
is defined, and the function returns with status `Success`; the divisor is at least
`1` whenever the exact difference `max - min` is below `2^63`, and it is exactly `1`
when every raw score is `0` (in particular on the empty batch). -/
theorem NormalizeScore_never_divides_by_zero (s : TestScheduling) (p : Pod)
    (scores : NodeScoreList) (hb : Int64Batch scores) :
    divisor scores ≠ 0 ∧
    (scannedMax scores - exactMin scores < 2 ^ 63 → 1 ≤ divisor scores) ∧
    ((∀ e ∈ scores, e.Score = 0) → divisor scores = 1) ∧
    (∀ e ∈ scores, (rescale (adjustedMin scores) (scannedMax scores) e.Score).isSome) ∧
    ∃ out, NormalizeScore s p scores = some (out, NewStatus Code.Success [""]) ∧
      out.length = scores.length := by
  obtain ⟨hg1, hg2⟩ := exact_gap_range scores hb
  have hdiv : divisor scores = wrap64 (scannedMax scores - exactMin scores) := by
    unfold divisor sub64
    rw [adjustedMin_eq_exactMin]
  have hne : divisor scores ≠ 0 := by
    rw [hdiv]
    unfold wrap64
    omega
  have hsome : ∀ sc : Int, rescale (adjustedMin scores) (scannedMax scores) sc =
      some (wrap64 (Int.tdiv (mul64 (sub64 sc (adjustedMin scores)) MaxNodeScore)
        (sub64 (scannedMax scores) (adjustedMin scores)))) := by
    intro sc
    have hne2 : sub64 (scannedMax scores) (adjustedMin scores) ≠ 0 := hne
    unfold rescale div64
    rw [if_neg hne2]
  refine ⟨hne, ?_, ?_, ?_, ?_⟩
  · intro hlt
    rw [hdiv, wrap64_of_fits _ ⟨by omega, hlt⟩]
    exact hg1
  · intro hzero
    obtain ⟨_, _, _, h4, h5⟩ := scan_foldl_spec scores 0 0
    have hlo : (scanMinMax scores).1 = 0 := by
      rcases h4 with h | ⟨e, he, h⟩
      · exact h
      · exact h.trans (hzero e he)
    have hhi : (scanMinMax scores).2 = 0 := by
      rcases h5 with h | ⟨e, he, h⟩
      · exact h
      · exact h.trans (hzero e he)
    rw [hdiv]
    unfold scannedMax exactMin
    simp only
    rw [hlo, hhi]
    decide
  · intro e _
    rw [hsome e.Score]
    rfl
  · have hloop := rescaleLoop_eq_map (adjustedMin scores) (scannedMax scores)
      (fun sc => wrap64 (Int.tdiv (mul64 (sub64 sc (adjustedMin scores)) MaxNodeScore)
        (sub64 (scannedMax scores) (adjustedMin scores)))) scores (fun e _ => hsome e.Score)
    have hrun : NormalizeScore s p scores = some (scores.map (fun e =>
        { e with Score := wrap64 (Int.tdiv
            (mul64 (sub64 e.Score (adjustedMin scores)) MaxNodeScore)
            (sub64 (scannedMax scores) (adjustedMin scores))) }),
        NewStatus Code.Success [""]) := by
      unfold NormalizeScore
      rw [hloop]
    exact ⟨_, hrun, List.length_map _ _⟩

/-- C6 amended on the overflowing batch `{A: MaxInt64, B: -1}`: the divisor is
non-zero and the call returns `Success`. -/
theorem NormalizeScore_never_divides_by_zero_witness :
    divisor [⟨"A", 9223372036854775807⟩, ⟨"B", -1⟩] ≠ 0 ∧
    ∃ out, NormalizeScore (pluginWith (listerOf []) 5) pendingPod
        [⟨"A", 9223372036854775807⟩, ⟨"B", -1⟩]
        = some (out, NewStatus Code.Success [""]) ∧ out.length = 2 :=
  ⟨(NormalizeScore_never_divides_by_zero (pluginWith (listerOf []) 5) pendingPod
      [⟨"A", 9223372036854775807⟩, ⟨"B", -1⟩] (by decide)).1,
   (NormalizeScore_never_divides_by_zero (pluginWith (listerOf []) 5) pendingPod
      [⟨"A", 9223372036854775807⟩, ⟨"B", -1⟩] (by decide)).2.2.2.2⟩

/-! ## Supporting facts on `NormalizeScore` -/

/-- Raw scores of magnitude at most `2^55` never overflow. -/
theorem NoOverflow_of_small (scores : NodeScoreList)
    (h : ∀ e ∈ scores, -(2 ^ 55) ≤ e.Score ∧ e.Score ≤ 2 ^ 55) : NoOverflow scores := by
  obtain ⟨hlo, hhi, _, h4, h5⟩ := scan_foldl_spec scores 0 0
  have hlo2 : -(2 ^ 55) ≤ (scanMinMax scores).1 := by
    unfold scanMinMax
    rcases h4 with h6 | ⟨e, he, h6⟩
    · rw [h6]; decide
    · rw [h6]; exact (h e he).1
  have hhi2 : (scanMinMax scores).2 ≤ 2 ^ 55 := by
    unfold scanMinMax
    rcases h5 with h6 | ⟨e, he, h6⟩
    · rw [h6]; decide
    · rw [h6]; exact (h e he).2
  have hmin : (scanMinMax scores).1 - 1 ≤ exactMin scores ∧ exactMin scores ≤ 0 := by
    have hlo3 : (scanMinMax scores).1 ≤ 0 := hlo
    unfold exactMin
    simp only
    split_ifs <;> omega
  refine ⟨fun e he => ?_, ?_, fun e he => ⟨?_, ?_, ?_⟩⟩
  · have := h e he
    unfold fitsInt64
    omega
  · unfold fitsInt64
    omega
  · have := h e he
    unfold fitsInt64
    omega
  · have := h e he
    unfold fitsInt64 MaxNodeScore
    omega
  · have hhi3 : 0 ≤ (scanMinMax scores).2 := hhi
    unfold fitsInt64 scannedMax
    omega

/-- Absent overflow, an entry whose raw score is the scanned `max` (the batch maximum
whenever that is non-negative) is normalised to `MaxNodeScore`. -/
theorem exactRescale_scannedMax (scores : NodeScoreList) :
    exactRescale scores (scannedMax scores) = MaxNodeScore := by
  obtain ⟨_, hgap, _⟩ := exactMin_spec scores
  unfold exactRescale
  exact Int.mul_ediv_cancel_left _ (by omega)

/-- With overflow even the weak order is lost: on `{A: 2^56, B: 2^62}` the product
`2^62 * 100` wraps to `0`, so `A` (the smaller raw score) is normalised to `1` and
`B` to `0`. -/
theorem NormalizeScore_overflow_reverses_order :
    ¬ NoOverflow [⟨"A", 72057594037927936⟩, ⟨"B", 4611686018427387904⟩] ∧
    NormalizeScore (pluginWith (listerOf []) 5) pendingPod
        [⟨"A", 72057594037927936⟩, ⟨"B", 4611686018427387904⟩]
      = some ([⟨"A", 1⟩, ⟨"B", 0⟩], NewStatus Code.Success [""]) := by
  constructor <;> decide

/-! ## Admission gate: lister failure -/

/-- C11. Whenever the workload lister returns an error, `PreFilter` returns the status
`NewStatus(Error, err.Error())`: its code is `Error` (neither `Unschedulable` nor
`Success`) and its message is exactly the underlying error's message, whatever the
threshold `MaxPods` is. -/
theorem PreFilter_lister_failure (s : TestScheduling) (p : Pod) (err : ListerError)
    (hl : s.fac.ListPods p.Namespace = .error err) :
    PreFilter s p = NewStatus Code.Error [err.Error] ∧
    (PreFilter s p).code = Code.Error ∧
    (PreFilter s p).code ≠ Code.Unschedulable ∧
    (PreFilter s p).code ≠ Code.Success ∧
    (PreFilter s p).Message = err.Error := by
  have h : PreFilter s p = NewStatus Code.Error [err.Error] := by
    simp only [PreFilter, hl]
  rw [h]
  refine ⟨rfl, rfl, ?_, ?_, rfl⟩
  · intro hc; cases hc
  · intro hc; cases hc

/-- C11 at a concrete failure: the lister is down, thresholds `0` and `1000`. -/
theorem PreFilter_lister_failure_witness :
    PreFilter (pluginWith (brokenLister "connection refused") 0) pendingPod
      = NewStatus Code.Error ["connection refused"] ∧
    (PreFilter (pluginWith (brokenLister "connection refused") 1000) pendingPod).Message
      = "connection refused" :=
  ⟨(PreFilter_lister_failure (pluginWith (brokenLister "connection refused") 0) pendingPod
      (.Unavailable "connection refused") rfl).1,
   (PreFilter_lister_failure (pluginWith (brokenLister "connection refused") 1000) pendingPod
      (.Unavailable "connection refused") rfl).2.2.2.2⟩

/-! ## Score computation (`Score`) -/

/-- C13. If the cycle state holds no value under the key `"nodeMem"`, then for every
host name `Score` returns the score `0` with an `Unschedulable` status, never a
`Success` status. -/
theorem Score_missing_snapshot (s : TestScheduling) (state : CycleState) (p : Pod)
    (nodeName : String) (habs : state.storage "nodeMem" = none) :
    Score s state p nodeName = some (0, NewStatus Code.Unschedulable []) ∧
    (∀ v st, Score s state p nodeName = some (v, st) →
      v = 0 ∧ st.code = Code.Unschedulable ∧ st.code ≠ Code.Success) := by
  have h : Score s state p nodeName = some (0, NewStatus Code.Unschedulable []) := by
    simp only [Score, CycleState.Read, habs]
  refine ⟨h, ?_⟩
  intro v st hv
  rw [h] at hv
  obtain ⟨rfl, rfl⟩ := Prod.mk.inj (Option.some.inj hv)
  refine ⟨rfl, rfl, ?_⟩
  intro hc; cases hc

/-- C13 on the empty cycle state. -/
theorem Score_missing_snapshot_witness :
    Score (pluginWith (listerOf []) 5) emptyState pendingPod "node-01"
      = some (0, NewStatus Code.Unschedulable []) :=
  (Score_missing_snapshot (pluginWith (listerOf []) 5) emptyState pendingPod "node-01" rfl).1

/-- C14, the code on a wrong-shaped value. When the key `"nodeMem"` holds a state
value that is not a `*NodeMem`, `Read` succeeds and the single-value type assertion
`getNodeMem.(*NodeMem)` panics: `Score` returns no status at all. -/
theorem Score_wrong_shape_panics :
    (emptyState.Write "nodeMem" (.ofOther "otherplugin.stateData")).Read "nodeMem"
      = .ok (.ofOther "otherplugin.stateData") ∧
    Score (pluginWith (listerOf []) 5)
      (emptyState.Write "nodeMem" (.ofOther "otherplugin.stateData")) pendingPod "node-01"
      = none := by
  constructor <;> rfl

/-- C15. If the snapshot is present but has no entry for the host name, `Score` returns
the fixed fallback raw score `5` with status `Success`. -/
theorem Score_unknown_host (s : TestScheduling) (state : CycleState) (p : Pod)
    (nodeName : String) (nm : NodeMem)
    (hread : state.Read "nodeMem" = .ok (.ofNodeMem nm)) (hunk : nm.m nodeName = none) :
    Score s state p nodeName = some (5, NewStatus Code.Success []) := by
  simp only [Score, hread, hunk]

/-- C15 after `PreScore`: the host `node-03` is not in the snapshot. -/
theorem Score_unknown_host_witness :
    Score (pluginWith (listerOf []) 5)
      (PreScore (pluginWith (listerOf []) 5) emptyState pendingPod []).1 pendingPod "node-03"
      = some (5, NewStatus Code.Success []) :=
  Score_unknown_host (pluginWith (listerOf []) 5)
    (PreScore (pluginWith (listerOf []) 5) emptyState pendingPod []).1 pendingPod "node-03"
    preScoreSnapshot rfl (by decide)

/-! ## Score normalisation on arbitrary `int64` batches -/

/-- On `int64` scores the divisor of the second loop is not `0`. -/
theorem divisor_ne_zero (scores : NodeScoreList) (hb : Int64Batch scores) :
    sub64 (scannedMax scores) (adjustedMin scores) ≠ 0 := by
  obtain ⟨hg1, hg2⟩ := exact_gap_range scores hb
  rw [adjustedMin_eq_exactMin]
  unfold sub64 wrap64
  omega

/-- On every batch of `int64` scores `NormalizeScore` returns with status `Success`
and rewrites each score to its `int64` quotient, leaving the rest of the entry. -/
theorem NormalizeScore_of_int64Batch (s : TestScheduling) (p : Pod) (scores : NodeScoreList)
    (hb : Int64Batch scores) :
    NormalizeScore s p scores =
      some (scores.map (fun e => { e with Score := wrappedRescale scores e.Score }),
        NewStatus Code.Success [""]) := by
  have hne := divisor_ne_zero scores hb
  have hloop := rescaleLoop_eq_map (adjustedMin scores) (scannedMax scores)
    (wrappedRescale scores) scores (fun e _ => by
      unfold rescale div64 wrappedRescale
      rw [if_neg hne])
  unfold NormalizeScore
  rw [hloop]

/-- C16, the code on large raw scores. With `int64` arithmetic wrapping modulo `2^64`,
the single-entry batch `{A: 2^61}` is normalised to `{A: -4}` (the product
`2^61 * 100` wraps to `MinInt64`), the batch `{A: 10^17, B: 1}` to `{A: -84, B: 0}`,
and the batch `{A: MaxInt64, B: MinInt64, C: -12345}` gives `C` a score above `100`:
normalised scores leave `[0, 100]` on both sides. -/
theorem NormalizeScore_wrapping_leaves_bounds :
    Int64Batch [⟨"A", 2305843009213693952⟩] ∧
    NormalizeScore (pluginWith (listerOf []) 5) pendingPod [⟨"A", 2305843009213693952⟩]
      = some ([⟨"A", -4⟩], NewStatus Code.Success [""]) ∧
    NormalizeScore (pluginWith (listerOf []) 5) pendingPod
        [⟨"A", 100000000000000000⟩, ⟨"B", 1⟩]
      = some ([⟨"A", -84⟩, ⟨"B", 0⟩], NewStatus Code.Success [""]) ∧
    Int64Batch [⟨"A", 9223372036854775807⟩, ⟨"B", -9223372036854775808⟩, ⟨"C", -12345⟩] ∧
    NormalizeScore (pluginWith (listerOf []) 5) pendingPod
        [⟨"A", 9223372036854775807⟩, ⟨"B", -9223372036854775808⟩, ⟨"C", -12345⟩]
      = some ([⟨"A", 100⟩, ⟨"B", 0⟩, ⟨"C", 1234500⟩], NewStatus Code.Success [""]) := by
  refine ⟨?_, ?_, ?_, ?_, ?_⟩ <;> decide

/-! ## The scan against the zero-seeded reference -/

/-- The reference bounds: `lo` is the least and `hi` the greatest of `0` and the raw
scores. -/
theorem zeroSeeded_spec (scores : NodeScoreList) :
    zeroSeededLo scores ≤ 0 ∧ 0 ≤ zeroSeededHi scores ∧
    (∀ e ∈ scores, zeroSeededLo scores ≤ e.Score ∧ e.Score ≤ zeroSeededHi scores) ∧
    (zeroSeededLo scores = 0 ∨ ∃ e ∈ scores, zeroSeededLo scores = e.Score) ∧
    (zeroSeededHi scores = 0 ∨ ∃ e ∈ scores, zeroSeededHi scores = e.Score) := by
  induction scores with
  | nil => simp [zeroSeededLo, zeroSeededHi]
  | cons x rest ih =>
    obtain ⟨h1, h2, h3, h4, h5⟩ := ih
    have hlo : zeroSeededLo (x :: rest) = min x.Score (zeroSeededLo rest) := rfl
    have hhi : zeroSeededHi (x :: rest) = max x.Score (zeroSeededHi rest) := rfl
    rw [hlo, hhi]
    refine ⟨by omega, by omega, ?_, ?_, ?_⟩
    · intro e he
      rcases List.mem_cons.mp he with rfl | hmem
      · constructor <;> omega
      · have := h3 e hmem
        constructor <;> omega
    · rcases min_choice x.Score (zeroSeededLo rest) with h | h
      · exact Or.inr ⟨x, List.mem_cons_self _ _, h⟩
      · rw [h]
        rcases h4 with h6 | ⟨e, he, h6⟩
        · exact Or.inl h6
        · exact Or.inr ⟨e, List.mem_cons_of_mem _ he, h6⟩
    · rcases max_choice x.Score (zeroSeededHi rest) with h | h
      · exact Or.inr ⟨x, List.mem_cons_self _ _, h⟩
      · rw [h]
        rcases h5 with h6 | ⟨e, he, h6⟩
        · exact Or.inl h6
        · exact Or.inr ⟨e, List.mem_cons_of_mem _ he, h6⟩

/-- The scan loop of the source computes the reference bounds. -/
theorem scanMinMax_eq_zeroSeeded (scores : NodeScoreList) :
    scanMinMax scores = (zeroSeededLo scores, zeroSeededHi scores) := by
  obtain ⟨a1, a2, a3, a4, a5⟩ := scan_foldl_spec scores 0 0
  obtain ⟨b1, b2, b3, b4, b5⟩ := zeroSeeded_spec scores
  have hlo : (scanMinMax scores).1 = zeroSeededLo scores := by
    unfold scanMinMax
    apply le_antisymm
    · rcases b4 with h | ⟨e, he, h⟩
      · rw [h]; exact a1
      · rw [h]; exact (a3 e he).1
    · rcases a4 with h | ⟨e, he, h⟩
      · rw [h]; exact b1
      · rw [h]; exact (b3 e he).1
  have hhi : (scanMinMax scores).2 = zeroSeededHi scores := by
    unfold scanMinMax
    apply le_antisymm
    · rcases a5 with h | ⟨e, he, h⟩
      · rw [h]; exact b2
      · rw [h]; exact (b3 e he).2
    · rcases b5 with h | ⟨e, he, h⟩
      · rw [h]; exact a2
      · rw [h]; exact (a3 e he).2
  exact Prod.ext hlo hhi

/-- The adjusted `min` of the source is the adjusted `lo` of the reference. -/
theorem adjustedMin_eq_zeroSeeded (scores : NodeScoreList) :
    adjustedMin scores = zeroSeededAdjustedLo scores ∧
    scannedMax scores = zeroSeededHi scores := by
  rw [adjustedMin_eq_exactMin]
  unfold exactMin scannedMax zeroSeededAdjustedLo
  simp only [scanMinMax_eq_zeroSeeded]
  exact ⟨trivial, trivial⟩

/-- The running maximum of a non-empty batch from its first score. -/
theorem foldl_max_spec (rest : NodeScoreList) :
    ∀ a : Int,
      a ≤ rest.foldl (fun m e => if e.Score > m then e.Score else m) a ∧
      (∀ e ∈ rest, e.Score ≤ rest.foldl (fun m e => if e.Score > m then e.Score else m) a) ∧
      (rest.foldl (fun m e => if e.Score > m then e.Score else m) a = a ∨
        ∃ e ∈ rest, rest.foldl (fun m e => if e.Score > m then e.Score else m) a = e.Score) := by
  induction rest with
  | nil => intro a; simp
  | cons x rest ih =>
    intro a
    rw [List.foldl_cons]
    have hb : a ≤ (if x.Score > a then x.Score else a) ∧
        x.Score ≤ (if x.Score > a then x.Score else a) ∧
        ((if x.Score > a then x.Score else a) = a ∨
          (if x.Score > a then x.Score else a) = x.Score) := by
      split_ifs <;> omega
    generalize (if x.Score > a then x.Score else a) = a2 at hb
    obtain ⟨h1, h2, h3⟩ := ih a2
    refine ⟨by omega, ?_, ?_⟩
    · intro e he
      rcases List.mem_cons.mp he with rfl | hmem
      · omega
      · exact h2 e hmem
    · rcases h3 with h | ⟨e, he, h⟩
      · rcases hb.2.2 with h6 | h6
        · exact Or.inl (h.trans h6)
        · exact Or.inr ⟨x, List.mem_cons_self _ _, h.trans h6⟩
      · exact Or.inr ⟨e, List.mem_cons_of_mem _ he, h⟩

/-- On a non-empty batch of positive raw scores the reference `hi` is the batch
maximum and `lo` stays `0`, also after the adjustment. -/
theorem zeroSeeded_of_positive (scores : NodeScoreList) (hne : scores ≠ [])
    (hpos : ∀ e ∈ scores, 0 < e.Score) :
    batchMax scores = some (zeroSeededHi scores) ∧ 0 < zeroSeededHi scores ∧
    zeroSeededLo scores = 0 ∧ zeroSeededAdjustedLo scores = 0 := by
  obtain ⟨b1, b2, b3, b4, b5⟩ := zeroSeeded_spec scores
  have hlo : zeroSeededLo scores = 0 := by
    rcases b4 with h | ⟨e, he, h⟩
    · exact h
    · have := hpos e he
      omega
  cases scores with
  | nil => exact absurd rfl hne
  | cons x rest =>
    have hx := hpos x (List.mem_cons_self _ _)
    have hxle := (b3 x (List.mem_cons_self _ _)).2
    have hhi : 0 < zeroSeededHi (x :: rest) := by omega
    refine ⟨?_, hhi, hlo, ?_⟩
    · obtain ⟨c1, c2, c3⟩ := foldl_max_spec rest x.Score
      show some (rest.foldl (fun m e => if e.Score > m then e.Score else m) x.Score)
        = some (zeroSeededHi (x :: rest))
      apply congrArg some
      apply le_antisymm
      · rcases c3 with h | ⟨e, he, h⟩
        · rw [h]; exact hxle
        · rw [h]; exact (b3 e (List.mem_cons_of_mem _ he)).2
      · rcases b5 with h | ⟨e, he, h⟩
        · omega
        · rw [h]
          rcases List.mem_cons.mp he with rfl | hmem
          · exact c1
          · exact c2 e hmem
    · unfold zeroSeededAdjustedLo
      rw [if_neg (by omega), hlo]

/-- The reference is the exact quotient the second loop computes absent overflow. -/
theorem zeroSeededReference_eq_exactRescale (scores : NodeScoreList) :
    zeroSeededReference scores
      = scores.map (fun e => { e with Score := exactRescale scores e.Score }) := by
  obtain ⟨hlo, hhi⟩ := adjustedMin_eq_zeroSeeded scores
  have hmin : exactMin scores = zeroSeededAdjustedLo scores := by
    rw [← adjustedMin_eq_exactMin, hlo]
  unfold zeroSeededReference exactRescale
  rw [hmin, hhi]
  rfl

/-- C17, counterexample. On the `int64` batch `{A: 2^61}` the reference has `lo = 0`,
`hi = 2^61` and output `(2^61 - 0) * 100 / 2^61 = 100`, while `NormalizeScore`
returns `{A: -4}`: the `int64` product `2^61 * 100` wraps to `MinInt64`. -/
theorem NormalizeScore_zeroSeededReference_counterexample :
    Int64Batch [⟨"A", 2305843009213693952⟩] ∧
    zeroSeededLo [⟨"A", 2305843009213693952⟩] = 0 ∧
    zeroSeededHi [⟨"A", 2305843009213693952⟩] = 2305843009213693952 ∧
    zeroSeededReference [⟨"A", 2305843009213693952⟩] = [⟨"A", 100⟩] ∧
    NormalizeScore (pluginWith (listerOf []) 5) pendingPod [⟨"A", 2305843009213693952⟩]
      = some ([⟨"A", -4⟩], NewStatus Code.Success [""]) ∧
    NormalizeScore (pluginWith (listerOf []) 5) pendingPod [⟨"A", 2305843009213693952⟩]
      ≠ some (zeroSeededReference [⟨"A", 2305843009213693952⟩],
          NewStatus Code.Success [""]) := by
  refine ⟨?_, ?_, ?_, ?_, ?_, ?_⟩ <;> decide

/-- C17, amended. On every batch on which no `int64` overflow occurs `NormalizeScore`
returns the literal zero-seeded reference: with `lo = min(0, all raw scores)`,
`hi = max(0, all raw scores)` and `lo` replaced by `lo - 1` when `hi == lo`, each
output is `(s - lo) * 100 / (hi - lo)` with integer division. When every raw score
of a non-empty batch is positive, `lo` stays `0`, `hi` is the batch maximum and each
output of the reference is `s * 100 / (batch maximum)`; on `{10, 20, 30}` this is
`{33, 66, 100}`, not the `{0, 50, 100}` of the formula over the batch minimum. -/
theorem NormalizeScore_eq_zeroSeededReference (s : TestScheduling) (p : Pod)
    (scores : NodeScoreList) (hno : NoOverflow scores) :
    NormalizeScore s p scores
      = some (zeroSeededReference scores, NewStatus Code.Success [""]) ∧
    (scores ≠ [] → (∀ e ∈ scores, 0 < e.Score) →
      ∃ bmax, batchMax scores = some bmax ∧ zeroSeededLo scores = 0 ∧
        zeroSeededAdjustedLo scores = 0 ∧ zeroSeededHi scores = bmax ∧
        zeroSeededReference scores
          = scores.map (fun e => { e with Score := e.Score * 100 / bmax })) ∧
    zeroSeededReference [⟨"A", 10⟩, ⟨"B", 20⟩, ⟨"C", 30⟩]
      = [⟨"A", 33⟩, ⟨"B", 66⟩, ⟨"C", 100⟩] ∧
    minMaxReference [⟨"A", 10⟩, ⟨"B", 20⟩, ⟨"C", 30⟩]
      = [⟨"A", 0⟩, ⟨"B", 50⟩, ⟨"C", 100⟩] := by
  refine ⟨?_, ?_, by decide, by decide⟩
  · rw [NormalizeScore_of_noOverflow s p scores hno, zeroSeededReference_eq_exactRescale]
  · intro hne hpos
    obtain ⟨h1, _, h3, h4⟩ := zeroSeeded_of_positive scores hne hpos
    refine ⟨zeroSeededHi scores, h1, h3, h4, rfl, ?_⟩
    unfold zeroSeededReference
    rw [h4]
    simp only [sub_zero]

/-- C17 amended on Scenario C: the call returns the zero-seeded reference, which is
`{33, 66, 100}`. -/
theorem NormalizeScore_eq_zeroSeededReference_witness :
    NormalizeScore (pluginWith (listerOf []) 5) pendingPod
        [⟨"A", 10⟩, ⟨"B", 20⟩, ⟨"C", 30⟩]
      = some (zeroSeededReference [⟨"A", 10⟩, ⟨"B", 20⟩, ⟨"C", 30⟩],
          NewStatus Code.Success [""]) :=
  (NormalizeScore_eq_zeroSeededReference (pluginWith (listerOf []) 5) pendingPod
    [⟨"A", 10⟩, ⟨"B", 20⟩, ⟨"C", 30⟩] (by decide)).1

/-- C18. On every batch on which no `int64` overflow occurs `NormalizeScore` is weakly
monotone: for two entries with raw scores `s_i ≤ s_j` the normalised scores satisfy
`out_i ≤ out_j`, and entries with equal raw scores receive equal normalised
scores. -/
theorem NormalizeScore_weakly_monotone (s : TestScheduling) (p : Pod)
    (scores out : NodeScoreList) (st : Status) (i j : Nat) (a b : NodeScore)
    (hno : NoOverflow scores) (hrun : NormalizeScore s p scores = some (out, st))
    (hi : scores[i]? = some a) (hj : scores[j]? = some b) (hle : a.Score ≤ b.Score) :
    ∃ a2 b2, out[i]? = some a2 ∧ out[j]? = some b2 ∧ a2.Score ≤ b2.Score ∧
      (a.Score = b.Score → a2.Score = b2.Score) := by
  rw [NormalizeScore_of_noOverflow s p scores hno] at hrun
  have hout : out = scores.map (fun e => { e with Score := exactRescale scores e.Score }) :=
    ((Prod.mk.inj (Option.some.inj hrun)).1).symm
  refine ⟨{ a with Score := exactRescale scores a.Score },
    { b with Score := exactRescale scores b.Score }, ?_, ?_,
    (exactRescale_mono scores a.Score b.Score hle).1, ?_⟩
  · rw [hout, List.getElem?_map, hi]; rfl
  · rw [hout, List.getElem?_map, hj]; rfl
  · intro heq
    show exactRescale scores a.Score = exactRescale scores b.Score
    rw [heq]

/-- C18 on the batch `{A:7, B:7, C:9}`: the tie `A`, `B` stays a tie. -/
theorem NormalizeScore_weakly_monotone_witness :
    ∃ a2 b2, ([⟨"A", 77⟩, ⟨"B", 77⟩, ⟨"C", 100⟩] : NodeScoreList)[0]? = some a2 ∧
      ([⟨"A", 77⟩, ⟨"B", 77⟩, ⟨"C", 100⟩] : NodeScoreList)[1]? = some b2 ∧
      a2.Score ≤ b2.Score ∧
      ((⟨"A", 7⟩ : NodeScore).Score = (⟨"B", 7⟩ : NodeScore).Score → a2.Score = b2.Score) :=
  NormalizeScore_weakly_monotone (pluginWith (listerOf []) 5) pendingPod
    [⟨"A", 7⟩, ⟨"B", 7⟩, ⟨"C", 9⟩] [⟨"A", 77⟩, ⟨"B", 77⟩, ⟨"C", 100⟩]
    (NewStatus Code.Success [""]) 0 1 ⟨"A", 7⟩ ⟨"B", 7⟩
    (by decide) (by decide) rfl rfl (by decide)

/-- C20. `NormalizeScore` changes only scores: on every batch of `int64` scores it
returns a batch of the same length whose entry at every position carries the host
name of the input entry at that position; only the `Score` field is rewritten. -/
theorem NormalizeScore_changes_only_scores (s : TestScheduling) (p : Pod)
    (scores : NodeScoreList) (hb : Int64Batch scores) :
    ∃ out, NormalizeScore s p scores = some (out, NewStatus Code.Success [""]) ∧
      out.length = scores.length ∧
      out.map NodeScore.Name = scores.map NodeScore.Name ∧
      (∀ (i : Nat) (e : NodeScore), scores[i]? = some e →
        ∃ e2, out[i]? = some e2 ∧ e2.Name = e.Name ∧
          e2 = { e with Score := e2.Score }) := by
  refine ⟨_, NormalizeScore_of_int64Batch s p scores hb, List.length_map _ _, ?_, ?_⟩
  · rw [List.map_map]
    rfl
  · intro i e he
    refine ⟨{ e with Score := wrappedRescale scores e.Score }, ?_, rfl, rfl⟩
    rw [List.getElem?_map, he]
    rfl

/-- C20 on Scenario C: three entries `A`, `B`, `C` in, the same three names out. -/
theorem NormalizeScore_changes_only_scores_witness :
    ∃ out, NormalizeScore (pluginWith (listerOf []) 5) pendingPod
        [⟨"A", 10⟩, ⟨"B", 20⟩, ⟨"C", 30⟩] = some (out, NewStatus Code.Success [""]) ∧
      out.length = 3 ∧ out.map NodeScore.Name = ["A", "B", "C"] :=
  (NormalizeScore_changes_only_scores (pluginWith (listerOf []) 5) pendingPod
    [⟨"A", 10⟩, ⟨"B", 20⟩, ⟨"C", 30⟩] (by decide)).imp
    (fun _ h => ⟨h.1, h.2.1, h.2.2.1⟩)

/-! ## Rounding to `float64` -/

/-- An integer is its own rounding. -/
theorem roundHalfEven_intCast (k : ℤ) : roundHalfEven (k : ℚ) = k := by
  unfold roundHalfEven
  rw [Int.floor_intCast]
  simp

/-- Rounding to nearest moves a value by at most one half. -/
theorem roundHalfEven_near (x : ℚ) : |(roundHalfEven x : ℚ) - x| ≤ 1 / 2 := by
  have hx1 := Int.floor_le x
  have hx2 := Int.lt_floor_add_one x
  unfold roundHalfEven
  rw [abs_le]
  split_ifs with h1 h2 h3
  · constructor <;> linarith
  · push_cast
    constructor <;> linarith
  · constructor <;> linarith
  · push_cast
    constructor <;> linarith

/-- A value strictly within one half of an integer rounds to it. -/
theorem roundHalfEven_of_near (x : ℚ) (n : ℤ) (h : |x - n| < 1 / 2) :
    roundHalfEven x = n := by
  rw [abs_lt] at h
  have hx1 := Int.floor_le x
  have hx2 := Int.lt_floor_add_one x
  have hlo : n - 1 ≤ ⌊x⌋ := by
    rw [Int.le_floor]
    push_cast
    linarith
  have hhi : ⌊x⌋ ≤ n := by
    have : ⌊x⌋ < n + 1 := by
      rw [Int.floor_lt]
      push_cast
      linarith
    omega
  unfold roundHalfEven
  rcases (show ⌊x⌋ = n ∨ ⌊x⌋ = n - 1 by omega) with hf | hf
  · rw [hf]
    rw [if_pos (by linarith)]
  · rw [hf]
    have hgt : (1 : ℚ) / 2 < x - ((n - 1 : ℤ) : ℚ) := by
      push_cast
      linarith
    rw [if_neg (by linarith), if_pos hgt]
    omega

/-- Rounding to nearest, ties to even, is monotone. -/
theorem roundHalfEven_mono {x y : ℚ} (h : x ≤ y) : roundHalfEven x ≤ roundHalfEven y := by
  have hnm : ⌊x⌋ ≤ ⌊y⌋ := Int.floor_mono h
  have hx1 := Int.floor_le x
  have hx2 := Int.lt_floor_add_one x
  have hy1 := Int.floor_le y
  have hy2 := Int.lt_floor_add_one y
  unfold roundHalfEven
  rcases hnm.lt_or_eq with hlt | heq
  · split_ifs <;> omega
  · rw [← heq] at hy1 hy2 ⊢
    split_ifs <;> first
      | omega
      | (exfalso; simp only [not_lt] at *; linarith)

/-- The spacing of a binade is positive. -/
theorem ulp_pos (q : ℚ) : 0 < ulp q := by
  unfold ulp
  exact zpow_pos (by norm_num) _

/-- A positive value lies below the top of its binade, and at or above its bottom
unless the exponent was clamped to the subnormal range. -/
theorem binadeExp_spec (q : ℚ) (hq : 0 < q) :
    q < 2 ^ (binadeExp q + 1) ∧ (binadeExp q = Int.log 2 q ∨ binadeExp q = -1022) ∧
    Int.log 2 q ≤ binadeExp q ∧ (binadeExp q = Int.log 2 q → 2 ^ binadeExp q ≤ q) := by
  have h1 : q < (2 : ℚ) ^ (Int.log 2 q + 1) := by
    have := Int.lt_zpow_succ_log_self (b := 2) (by norm_num) q
    simpa using this
  have h2 : (2 : ℚ) ^ (Int.log 2 q) ≤ q := by
    have := Int.zpow_log_le_self (b := 2) (r := q) (by norm_num) hq
    simpa using this
  have he : Int.log 2 q ≤ binadeExp q := by
    unfold binadeExp
    rw [abs_of_pos hq]
    exact le_max_left _ _
  have hc : binadeExp q = Int.log 2 q ∨ binadeExp q = -1022 := by
    unfold binadeExp
    rw [abs_of_pos hq]
    exact max_choice _ _
  refine ⟨?_, hc, he, ?_⟩
  · calc q < (2 : ℚ) ^ (Int.log 2 q + 1) := h1
      _ ≤ 2 ^ (binadeExp q + 1) := zpow_le_zpow_right₀ (by norm_num) (by omega)
  · intro heq
    rw [heq]
    exact h2

/-- The binade exponent is never below the subnormal exponent. -/
theorem binadeExp_ge (q : ℚ) : -1022 ≤ binadeExp q := by
  unfold binadeExp
  exact le_max_right _ _

/-- The top of a binade is `2^53` spacings, its bottom `2^52`. -/
theorem binade_in_ulps (q : ℚ) :
    (2 : ℚ) ^ (binadeExp q + 1) = ((2 ^ 53 : ℤ) : ℚ) * ulp q ∧
    (2 : ℚ) ^ (binadeExp q) = ((2 ^ 52 : ℤ) : ℚ) * ulp q := by
  unfold ulp
  constructor
  · have : binadeExp q + 1 = 53 + (binadeExp q - 52) := by ring
    rw [this, zpow_add₀ (by norm_num)]
    norm_num
  · have : binadeExp q = 52 + (binadeExp q - 52) := by ring
    nth_rewrite 1 [this]
    rw [zpow_add₀ (by norm_num)]
    norm_num

/-- Zero rounds to zero. -/
theorem roundToGrid_zero : roundToGrid 0 = 0 := by
  unfold roundToGrid
  have h := roundHalfEven_intCast 0
  simp only [Int.cast_zero] at h
  rw [zero_div, h]
  simp

/-- The rounding of a positive value stays inside the closed binade of the value. -/
theorem roundToGrid_bounds (q : ℚ) (hq : 0 < q) :
    0 ≤ roundToGrid q ∧ roundToGrid q ≤ 2 ^ (binadeExp q + 1) ∧
    (2 ^ binadeExp q ≤ q → 2 ^ binadeExp q ≤ roundToGrid q) := by
  obtain ⟨hlt, _, _, _⟩ := binadeExp_spec q hq
  obtain ⟨htop, hbot⟩ := binade_in_ulps q
  have hu := ulp_pos q
  unfold roundToGrid
  refine ⟨?_, ?_, ?_⟩
  · have h0 : roundHalfEven ((0 : ℤ) : ℚ) ≤ roundHalfEven (q / ulp q) :=
      roundHalfEven_mono (by
        simp only [Int.cast_zero]
        exact div_nonneg hq.le hu.le)
    rw [roundHalfEven_intCast] at h0
    exact mul_nonneg (by exact_mod_cast h0) hu.le
  · rw [htop]
    have h1 : roundHalfEven (q / ulp q) ≤ roundHalfEven (((2 ^ 53 : ℤ) : ℚ)) :=
      roundHalfEven_mono (by
        rw [div_le_iff₀ hu, ← htop]
        exact hlt.le)
    rw [roundHalfEven_intCast] at h1
    exact mul_le_mul_of_nonneg_right (by exact_mod_cast h1) hu.le
  · intro hge
    rw [hbot] at hge ⊢
    have h1 : roundHalfEven (((2 ^ 52 : ℤ) : ℚ)) ≤ roundHalfEven (q / ulp q) :=
      roundHalfEven_mono (by
        rw [le_div_iff₀ hu]
        exact hge)
    rw [roundHalfEven_intCast] at h1
    exact mul_le_mul_of_nonneg_right (by exact_mod_cast h1) hu.le

/-- Rounding to the `float64` grid is monotone on the non-negative values. -/
theorem roundToGrid_mono (a b : ℚ) (ha : 0 ≤ a) (hab : a ≤ b) :
    roundToGrid a ≤ roundToGrid b := by
  rcases ha.lt_or_eq with hpos | hzero
  · have hb : 0 < b := lt_of_lt_of_le hpos hab
    obtain ⟨_, hca, hla, _⟩ := binadeExp_spec a hpos
    obtain ⟨_, hcb, hlb, hbb⟩ := binadeExp_spec b hb
    have hlog : Int.log 2 a ≤ Int.log 2 b := Int.log_mono_right hpos hab
    have hga := binadeExp_ge a
    have hgb := binadeExp_ge b
    have hexp : binadeExp a ≤ binadeExp b := by
      rcases hca with h | h <;> rcases hcb with h2 | h2 <;> omega
    rcases hexp.lt_or_eq with hlt | heq
    · have hbe : binadeExp b = Int.log 2 b := by
        rcases hcb with h | h
        · exact h
        · rcases hca with h3 | h3 <;> omega
      have h1 := (roundToGrid_bounds a hpos).2.1
      have h2 := (roundToGrid_bounds b hb).2.2 (hbb hbe)
      calc roundToGrid a ≤ 2 ^ (binadeExp a + 1) := h1
        _ ≤ 2 ^ binadeExp b := zpow_le_zpow_right₀ (by norm_num) (by omega)
        _ ≤ roundToGrid b := h2
    · have hu : ulp a = ulp b := by
        unfold ulp
        rw [heq]
      unfold roundToGrid
      rw [hu]
      have hub := ulp_pos b
      have h1 : roundHalfEven (a / ulp b) ≤ roundHalfEven (b / ulp b) :=
        roundHalfEven_mono (div_le_div_of_nonneg_right hab hub.le)
      exact mul_le_mul_of_nonneg_right (by exact_mod_cast h1) hub.le
  · rw [← hzero, roundToGrid_zero]
    rcases hab.lt_or_eq with hb | hb
    · rw [← hzero] at hb
      exact (roundToGrid_bounds b hb).1
    · rw [← hb, ← hzero, roundToGrid_zero]

/-- The binade exponent of a value inside the normal binade `[2^e, 2^(e+1))`. -/
theorem binadeExp_eq (q : ℚ) (e : ℤ) (he : -1022 ≤ e) (h1 : 2 ^ e ≤ q)
    (h2 : q < 2 ^ (e + 1)) : binadeExp q = e := by
  have hq : 0 < q := lt_of_lt_of_le (zpow_pos (by norm_num) e) h1
  have hle : e ≤ Int.log 2 q :=
    (Int.zpow_le_iff_le_log (b := 2) (by norm_num) hq).mp (by simpa using h1)
  have hlt : Int.log 2 q < e + 1 :=
    (Int.lt_zpow_iff_log_lt (b := 2) (by norm_num) hq).mp (by simpa using h2)
  unfold binadeExp
  rw [abs_of_pos hq, max_eq_left (by omega)]
  omega

/-- Evaluation of the rounding: a value of the binade `[2^e, 2^(e+1))` that lies
strictly within half a spacing of `n` spacings rounds to `n` spacings. -/
theorem roundToGrid_eval (q : ℚ) (e n : ℤ) (he : -1022 ≤ e) (h1 : 2 ^ e ≤ q)
    (h2 : q < 2 ^ (e + 1)) (hn : |q / 2 ^ (e - 52) - n| < 1 / 2) :
    roundToGrid q = n * 2 ^ (e - 52) := by
  unfold roundToGrid ulp
  rw [binadeExp_eq q e he h1 h2, roundHalfEven_of_near _ n hn]

/-- Integers below `2^53` are `float64` values: they round to themselves. -/
theorem roundToGrid_int (k : ℤ) (hk1 : 1 ≤ k) (hk2 : k < 2 ^ 53) :
    roundToGrid (k : ℚ) = k := by
  have hq : (0 : ℚ) < k := by exact_mod_cast (by omega : 0 < k)
  obtain ⟨_, hc, hl, hb⟩ := binadeExp_spec k hq
  have hlog0 : 0 ≤ Int.log 2 (k : ℚ) := by
    have h1k : (1 : ℚ) ≤ (k : ℚ) := by exact_mod_cast hk1
    have h : Int.log 2 (1 : ℚ) ≤ Int.log 2 (k : ℚ) := Int.log_mono_right one_pos h1k
    rwa [Int.log_one_right] at h
  have he : binadeExp (k : ℚ) = Int.log 2 (k : ℚ) := by
    rcases hc with h | h
    · exact h
    · omega
  have hle : (2 : ℚ) ^ binadeExp (k : ℚ) ≤ k := hb he
  have he52 : binadeExp (k : ℚ) ≤ 52 := by
    by_contra hcon
    have h53 : (2 : ℚ) ^ (53 : ℤ) ≤ 2 ^ binadeExp (k : ℚ) :=
      zpow_le_zpow_right₀ (by norm_num) (by omega)
    have hkq : ((2 ^ 53 : ℤ) : ℚ) ≤ (k : ℚ) := by
      calc ((2 ^ 53 : ℤ) : ℚ) = (2 : ℚ) ^ (53 : ℤ) := by norm_num
        _ ≤ 2 ^ binadeExp (k : ℚ) := h53
        _ ≤ k := hle
    have hki : (2 ^ 53 : ℤ) ≤ k := by exact_mod_cast hkq
    omega
  obtain ⟨n, hn⟩ : ∃ n : ℕ, (n : ℤ) = 52 - binadeExp (k : ℚ) :=
    ⟨(52 - binadeExp (k : ℚ)).toNat, Int.toNat_of_nonneg (by omega)⟩
  have hu : ulp (k : ℚ) = ((2 : ℚ) ^ n)⁻¹ := by
    unfold ulp
    have hneg : binadeExp (k : ℚ) - 52 = -(n : ℤ) := by omega
    rw [hneg, zpow_neg, zpow_natCast]
  have hpow : (0 : ℚ) < (2 : ℚ) ^ n := pow_pos (by norm_num) n
  have hdiv : (k : ℚ) / ((2 : ℚ) ^ n)⁻¹ = ((k * 2 ^ n : ℤ) : ℚ) := by
    push_cast
    rw [div_inv_eq_mul]
  unfold roundToGrid
  rw [hu, hdiv, roundHalfEven_intCast]
  push_cast
  field_simp

/-- A non-negative value between two consecutive integers below `2^53` rounds to a
value between them. -/
theorem roundToGrid_between (x : ℚ) (k : ℤ) (hk0 : 0 ≤ k) (hk : k + 1 < 2 ^ 53)
    (h1 : (k : ℚ) ≤ x) (h2 : x ≤ ((k + 1 : ℤ) : ℚ)) :
    (k : ℚ) ≤ roundToGrid x ∧ roundToGrid x ≤ ((k + 1 : ℤ) : ℚ) := by
  have hk0q : (0 : ℚ) ≤ k := by exact_mod_cast hk0
  have hup := roundToGrid_mono x ((k + 1 : ℤ) : ℚ) (le_trans hk0q h1) h2
  rw [roundToGrid_int (k + 1) (by omega) hk] at hup
  refine ⟨?_, hup⟩
  have hlo := roundToGrid_mono (k : ℚ) x hk0q h1
  rcases hk0.lt_or_eq with hpos | hzero
  · rw [roundToGrid_int k (by omega) (by omega)] at hlo
    exact hlo
  · rw [← hzero] at hlo ⊢
    simp only [Int.cast_zero] at hlo ⊢
    rw [roundToGrid_zero] at hlo
    exact hlo

/-- The expression `int64(50.0 * f)` for a fraction `f` in `[0, 1]`: the product is the
finite `float64` nearest to `50 * f`, it lies in `[0, 50]`, and the conversion takes
its floor. -/
theorem rawScore_spec (f : ℚ) (h0 : 0 ≤ f) (h1 : f ≤ 1) :
    mulFloat64 (.finite 50) (.finite f) = .finite (roundToGrid (50 * f)) ∧
    rawScore (.finite f) = ⌊roundToGrid (50 * f)⌋ ∧
    0 ≤ roundToGrid (50 * f) ∧ roundToGrid (50 * f) ≤ 50 := by
  have hx0 : (0 : ℚ) ≤ 50 * f := by linarith
  have hx1 : 50 * f ≤ ((50 : ℤ) : ℚ) := by
    push_cast
    linarith
  have hlo : 0 ≤ roundToGrid (50 * f) := by
    have h := roundToGrid_mono 0 (50 * f) le_rfl hx0
    rwa [roundToGrid_zero] at h
  have hhi : roundToGrid (50 * f) ≤ 50 := by
    have h := roundToGrid_mono (50 * f) ((50 : ℤ) : ℚ) hx0 hx1
    rw [roundToGrid_int 50 (by norm_num) (by norm_num)] at h
    exact_mod_cast h
  have hmul : mulFloat64 (.finite 50) (.finite f) = .finite (roundToGrid (50 * f)) := by
    show round64 (50 * f) = _
    unfold round64
    rw [if_neg]
    rw [abs_of_nonneg hlo, not_le]
    calc roundToGrid (50 * f) ≤ 50 := hhi
      _ < 2 ^ 1024 := by norm_num
  refine ⟨hmul, ?_, hlo, hhi⟩
  unfold rawScore
  rw [hmul]
  unfold toInt64
  simp only [if_pos hlo]
  have hf0 : 0 ≤ ⌊roundToGrid (50 * f)⌋ := Int.floor_nonneg.mpr hlo
  have hf1 : ⌊roundToGrid (50 * f)⌋ ≤ 50 := by
    have : ⌊roundToGrid (50 * f)⌋ < 51 := by
      rw [Int.floor_lt]
      push_cast
      linarith
    omega
  rw [if_pos]
  unfold fitsInt64
  constructor <;> omega

/-- The constant `0.4` as a `float64`: `3602879701896397 / 2^53`. -/
theorem float64Const_04 :
    float64Const (4 / 10) = .finite (3602879701896397 / 9007199254740992) := by
  have h := roundToGrid_eval (4 / 10) (-2) 7205759403792794 (by norm_num) (by norm_num)
    (by norm_num) (by norm_num [abs_lt])
  unfold float64Const round64
  rw [h, if_neg (by norm_num [abs_lt])]
  norm_num

/-- The constant `0.6` as a `float64`: `5404319552844595 / 2^53`. -/
theorem float64Const_06 :
    float64Const (6 / 10) = .finite (5404319552844595 / 9007199254740992) := by
  have h := roundToGrid_eval (6 / 10) (-1) 5404319552844595 (by norm_num) (by norm_num)
    (by norm_num) (by norm_num [abs_lt])
  unfold float64Const round64
  rw [h, if_neg (by norm_num [abs_lt])]
  norm_num

/-- The product `50.0 * 0.4` in `float64` is `20`, and `int64` of it is `20`. -/
theorem rawScore_04 : rawScore (.finite (3602879701896397 / 9007199254740992)) = 20 := by
  have h := roundToGrid_eval (50 * (3602879701896397 / 9007199254740992)) 4
    5629499534213120 (by norm_num) (by norm_num) (by norm_num) (by norm_num [abs_lt])
  rw [(rawScore_spec _ (by norm_num) (by norm_num)).2.1, h]
  norm_num

/-- The product `50.0 * 0.6` in `float64` is `30`, and `int64` of it is `30`. -/
theorem rawScore_06 : rawScore (.finite (5404319552844595 / 9007199254740992)) = 30 := by
  have h := roundToGrid_eval (50 * (5404319552844595 / 9007199254740992)) 4
    8444249301319680 (by norm_num) (by norm_num) (by norm_num) (by norm_num [abs_lt])
  rw [(rawScore_spec _ (by norm_num) (by norm_num)).2.1, h]
  norm_num

/-! ## Score computation: recorded hosts -/

/-- With the snapshot present and an entry `per` for the host, `Score` returns
`int64(50.0 * per)` with status `Success`. -/
theorem Score_of_recorded (s : TestScheduling) (state : CycleState) (p : Pod)
    (nodeName : String) (nm : NodeMem) (per : Float64)
    (hread : state.Read "nodeMem" = .ok (.ofNodeMem nm)) (hrec : nm.m nodeName = some per) :
    Score s state p nodeName = some (rawScore per, NewStatus Code.Success []) := by
  simp only [Score, hread, hrec]

/-- The entries of the snapshot built by `PreScore`. -/
theorem preScoreSnapshot_entries :
    preScoreSnapshot.m "node-01" = some (.finite (3602879701896397 / 9007199254740992)) ∧
    preScoreSnapshot.m "node-02" = some (.finite (5404319552844595 / 9007199254740992)) ∧
    (∀ name, name ≠ "node-01" → name ≠ "node-02" → preScoreSnapshot.m name = none) := by
  refine ⟨?_, ?_, ?_⟩
  · rw [← float64Const_04]
    rfl
  · rw [← float64Const_06]
    rfl
  · intro name h1 h2
    unfold preScoreSnapshot GoMap.set GoMap.make
    simp only [if_neg h1, if_neg h2]

/-- After `PreScore`, `Score` gives `node-01` the raw score `20`, `node-02` the raw
score `30` and any other host the fallback `5`. -/
theorem Score_after_PreScore (s : TestScheduling) (state : CycleState) (p : Pod)
    (nodes : List Node) :
    Score s (PreScore s state p nodes).1 p "node-01" = some (20, NewStatus Code.Success []) ∧
    Score s (PreScore s state p nodes).1 p "node-02" = some (30, NewStatus Code.Success []) ∧
    Score s (PreScore s state p nodes).1 p "node-03" = some (5, NewStatus Code.Success []) := by
  have hread : (PreScore s state p nodes).1.Read "nodeMem" = .ok (.ofNodeMem preScoreSnapshot) :=
    rfl
  obtain ⟨h1, h2, h3⟩ := preScoreSnapshot_entries
  refine ⟨?_, ?_, ?_⟩
  · rw [Score_of_recorded s _ p "node-01" _ _ hread h1, rawScore_04]
  · rw [Score_of_recorded s _ p "node-02" _ _ hread h2, rawScore_06]
  · simp only [Score, hread, h3 "node-03" (by decide) (by decide)]

/-- C12, counterexample. The snapshot built by `PreScore` records for `node-02` the
fraction `f = 5404319552844595 / 2^53` (the `float64` nearest to `0.6`), which lies
in `[0, 1]`. The exact product `50 * f` is just below `30`, so `floor(50 * f) = 29`,
but the `float64` product rounds to `30` and `Score` returns the raw score `30`. -/
theorem Score_exact_floor_counterexample :
    preScoreSnapshot.m "node-02"
      = some (.finite (5404319552844595 / 9007199254740992)) ∧
    (0 : ℚ) ≤ 5404319552844595 / 9007199254740992 ∧
    (5404319552844595 / 9007199254740992 : ℚ) ≤ 1 ∧
    ⌊(50 : ℚ) * (5404319552844595 / 9007199254740992)⌋ = 29 ∧
    Score (pluginWith (listerOf []) 5)
      (PreScore (pluginWith (listerOf []) 5) emptyState pendingPod []).1 pendingPod "node-02"
      = some (30, NewStatus Code.Success []) := by
  refine ⟨preScoreSnapshot_entries.2.1, by norm_num, by norm_num, ?_,
    (Score_after_PreScore _ _ _ _).2.1⟩
  rw [Int.floor_eq_iff]
  constructor <;> norm_num

/-- C12, amended. For every snapshot present in the cycle state that records an
availability fraction `f` in `[0, 1]` for the host, `Score` returns status `Success`
and the raw score `floor(r)`, where `r` is the `float64` product of `50.0` and `f`,
the `float64` nearest to the exact product `50 * f`; the raw score is
`floor(50 * f)` or `floor(50 * f) + 1`, lies in `[0, 50]` and is monotonically
non-decreasing in `f`. -/
theorem Score_recorded_host (s : TestScheduling) (state : CycleState) (p : Pod)
    (nodeName : String) (nm : NodeMem) (f : ℚ)
    (hread : state.Read "nodeMem" = .ok (.ofNodeMem nm))
    (hrec : nm.m nodeName = some (.finite f)) (h0 : 0 ≤ f) (h1 : f ≤ 1) :
    ∃ r : ℚ, mulFloat64 (.finite 50) (.finite f) = .finite r ∧
      |r - 50 * f| ≤ ulp (50 * f) / 2 ∧
      Score s state p nodeName = some (⌊r⌋, NewStatus Code.Success []) ∧
      0 ≤ ⌊r⌋ ∧ ⌊r⌋ ≤ 50 ∧
      ⌊50 * f⌋ ≤ ⌊r⌋ ∧ ⌊r⌋ ≤ ⌊50 * f⌋ + 1 ∧
      (∀ (state2 : CycleState) (nm2 : NodeMem) (nodeName2 : String) (g : ℚ),
        state2.Read "nodeMem" = .ok (.ofNodeMem nm2) →
        nm2.m nodeName2 = some (.finite g) → f ≤ g → g ≤ 1 →
        ∃ w, Score s state2 p nodeName2 = some (w, NewStatus Code.Success []) ∧ ⌊r⌋ ≤ w) := by
  obtain ⟨hmul, hraw, hlo, hhi⟩ := rawScore_spec f h0 h1
  have hx0 : (0 : ℚ) ≤ 50 * f := by linarith
  have hk0 : 0 ≤ ⌊50 * f⌋ := Int.floor_nonneg.mpr hx0
  have hk1 : ⌊50 * f⌋ ≤ 50 := by
    have : ⌊50 * f⌋ < 51 := by
      rw [Int.floor_lt]
      push_cast
      linarith
    omega
  obtain ⟨hb1, hb2⟩ := roundToGrid_between (50 * f) ⌊50 * f⌋ hk0 (by omega)
    (Int.floor_le _) (by
      push_cast
      exact (Int.lt_floor_add_one _).le)
  refine ⟨roundToGrid (50 * f), hmul, ?_, ?_, Int.floor_nonneg.mpr hlo, ?_, ?_, ?_, ?_⟩
  · have hu := ulp_pos (50 * f)
    have hnear := roundHalfEven_near (50 * f / ulp (50 * f))
    have heq : roundToGrid (50 * f) - 50 * f
        = ((roundHalfEven (50 * f / ulp (50 * f)) : ℚ) - 50 * f / ulp (50 * f))
          * ulp (50 * f) := by
      unfold roundToGrid
      field_simp
    rw [heq, abs_mul, abs_of_pos hu]
    calc |(roundHalfEven (50 * f / ulp (50 * f)) : ℚ) - 50 * f / ulp (50 * f)| * ulp (50 * f)
        ≤ 1 / 2 * ulp (50 * f) := mul_le_mul_of_nonneg_right hnear hu.le
      _ = ulp (50 * f) / 2 := by ring
  · rw [Score_of_recorded s state p nodeName nm _ hread hrec, hraw]
  · have : ⌊roundToGrid (50 * f)⌋ < 51 := by
      rw [Int.floor_lt]
      push_cast
      linarith
    omega
  · exact Int.le_floor.mpr hb1
  · have h2 : ((⌊roundToGrid (50 * f)⌋ : ℤ) : ℚ) ≤ ((⌊50 * f⌋ + 1 : ℤ) : ℚ) :=
      le_trans (Int.floor_le _) hb2
    exact_mod_cast h2
  · intro state2 nm2 nodeName2 g hread2 hrec2 hfg hg1
    obtain ⟨_, hraw2, _, _⟩ := rawScore_spec g (le_trans h0 hfg) hg1
    refine ⟨rawScore (.finite g), Score_of_recorded s state2 p nodeName2 nm2 _ hread2 hrec2, ?_⟩
    rw [hraw2]
    exact Int.floor_mono (roundToGrid_mono _ _ hx0 (by linarith))

/-- C12 amended after `PreScore`, for the host `node-02` whose recorded fraction is
the `float64` nearest to `0.6`. -/
theorem Score_recorded_host_witness :
    ∃ r : ℚ,
      mulFloat64 (.finite 50) (.finite (5404319552844595 / 9007199254740992)) = .finite r ∧
      Score (pluginWith (listerOf []) 5)
        (PreScore (pluginWith (listerOf []) 5) emptyState pendingPod []).1 pendingPod "node-02"
        = some (⌊r⌋, NewStatus Code.Success []) ∧
      0 ≤ ⌊r⌋ ∧ ⌊r⌋ ≤ 50 ∧
      ⌊(50 : ℚ) * (5404319552844595 / 9007199254740992)⌋ ≤ ⌊r⌋ ∧
      ⌊r⌋ ≤ ⌊(50 : ℚ) * (5404319552844595 / 9007199254740992)⌋ + 1 :=
  (Score_recorded_host (pluginWith (listerOf []) 5)
    (PreScore (pluginWith (listerOf []) 5) emptyState pendingPod []).1 pendingPod "node-02"
    preScoreSnapshot (5404319552844595 / 9007199254740992) rfl
    preScoreSnapshot_entries.2.1 (by norm_num) (by norm_num)).imp
    (fun _ h => ⟨h.1, h.2.2.1, h.2.2.2.1, h.2.2.2.2.1, h.2.2.2.2.2.1, h.2.2.2.2.2.2.1⟩)

/-! ## Metrics snapshot (`PreScore`) -/

/-- Writing the same value under the same key twice is writing it once. -/
theorem CycleState.Write_Write (state : CycleState) (key : String) (val : StateData) :
    (state.Write key val).Write key val = state.Write key val := by
  unfold CycleState.Write
  congr 1
  funext k2
  unfold GoMap.set
  by_cases h : k2 = key
  · simp only [if_pos h]
  · simp only [if_neg h]

/-- C19. For every initial cycle state, pod and candidate host list, `PreScore` returns
`Success`; the resulting state agrees with the initial one at every key other than
`"nodeMem"`, and under `"nodeMem"` it holds (whatever was there before) the snapshot
with exactly the entries `node-01 ↦ 0.4` and `node-02 ↦ 0.6` as `float64`, fractions
that lie in `[0, 1]`; running `PreScore` again on the result changes nothing. -/
theorem PreScore_frame_and_idempotent (s : TestScheduling) (state : CycleState) (pod : Pod)
    (nodes : List Node) :
    (PreScore s state pod nodes).2 = NewStatus Code.Success [] ∧
    (∀ key, key ≠ "nodeMem" →
      (PreScore s state pod nodes).1.storage key = state.storage key) ∧
    (PreScore s state pod nodes).1.Read "nodeMem" = .ok (.ofNodeMem preScoreSnapshot) ∧
    preScoreSnapshot.m "node-01" = some (float64Const (4 / 10)) ∧
    preScoreSnapshot.m "node-02" = some (float64Const (6 / 10)) ∧
    (∀ name, name ≠ "node-01" → name ≠ "node-02" → preScoreSnapshot.m name = none) ∧
    (∀ name v, preScoreSnapshot.m name = some v → ∃ q, v = .finite q ∧ 0 ≤ q ∧ q ≤ 1) ∧
    (∀ (pod2 : Pod) (nodes2 : List Node),
      PreScore s (PreScore s state pod nodes).1 pod2 nodes2 = PreScore s state pod nodes) := by
  obtain ⟨e1, e2, e3⟩ := preScoreSnapshot_entries
  refine ⟨rfl, ?_, rfl, ?_, ?_, e3, ?_, ?_⟩
  · intro key hkey
    show (if key = "nodeMem" then _ else state.storage key) = _
    rw [if_neg hkey]
  · rw [float64Const_04]
    exact e1
  · rw [float64Const_06]
    exact e2
  · intro name v hv
    by_cases h1 : name = "node-01"
    · rw [h1, e1] at hv
      refine ⟨_, (Option.some.inj hv).symm, by norm_num, by norm_num⟩
    · by_cases h2 : name = "node-02"
      · rw [h2, e2] at hv
        refine ⟨_, (Option.some.inj hv).symm, by norm_num, by norm_num⟩
      · rw [e3 name h1 h2] at hv
        cases hv
  · intro pod2 nodes2
    unfold PreScore
    rw [CycleState.Write_Write]

end lib
